import Mathlib

/-! # fs.c : the user file-system API of BFS

A shallow embedding of `fsRead`, `fsWrite`, `fsSeek`, `fsTell` and `fsSize`
from `fs.c`, together with the block-level collaborators they call
(`bfs.h`, not part of the translated file), and theorems about them.

Conventions.
* `i32` values are integers; every `i32` addition and subtraction of the
  source is followed by `wrap`, the two's-complement reduction to 32 bits.
* `BYTESPERBLOCK` is a constant of `bfs.h`; it is the parameter `B` of every
  definition that uses it.
* A byte array (`i8*`) is a function from the index relative to its base
  pointer to the byte stored there; `NULL` is `none`.
* `FATAL(code)` ends the process.  The embedding returns the code together
  with the file-system state at the moment of the abort.
-/

namespace Fs

/-! ## Machine integers and memory -/

/-- The type `i8` of the source: one byte. -/
abbrev i8 := Int

/-- A byte array, indexed from its base pointer. -/
abbrev Mem := Int → i8

/-- Reduction of an integer to the range of `i32` (two's complement). -/
def wrap (x : Int) : Int := (x + 2147483648) % 4294967296 - 2147483648

/-- The values an `i32` can hold. -/
def I32 (x : Int) : Prop := -2147483648 ≤ x ∧ x ≤ 2147483647

instance (x : Int) : Decidable (I32 x) := by unfold I32; infer_instance

/-- The libc call `memset(p + off, v, n)`. -/
def memset (p : Mem) (off : Int) (v : i8) (n : Int) : Mem :=
  fun j => if off ≤ j ∧ j < off + n then v else p j

/-- The libc call `memcpy(dst + doff, src + soff, n)`. -/
def memcpy (dst : Mem) (doff : Int) (src : Mem) (soff : Int) (n : Int) : Mem :=
  fun j => if doff ≤ j ∧ j < doff + n then src (soff + (j - doff)) else dst j

/-- Update of a function at one point (an array store). -/
def upd (f : Int → α) (k : Int) (v : α) : Int → α :=
  fun j => if j = k then v else f j

/-! ## Error codes and outcomes -/

/-- The error codes `fs.c` passes to `FATAL`. -/
inductive Err where
  | ENEGNUMB
  | ENULLPTR
  | EBADCURS
  | EBADWHENCE
  | EDISKFULL
  deriving DecidableEq, Repr

/-- How a call ends: it returns an `i32`, it aborts through `FATAL`, or its
loop has not finished within the iteration budget of the embedding. -/
inductive Outcome where
  | ret (v : Int)
  | fatal (e : Err)
  | diverge
  deriving DecidableEq, Repr

/-- The constants of `stdio.h`. -/
def SEEK_SET : Int := 0

/-- The constant `SEEK_CUR` of `stdio.h`. -/
def SEEK_CUR : Int := 1

/-- The constant `SEEK_END` of `stdio.h`. -/
def SEEK_END : Int := 2

/-! ## The collaborators of `bfs.h` -/

/-- Modelled from the spec: the state owned by the collaborators of `bfs.h`
(session table, inode sizes, block map, raw blocks, free-block allocator),
none of which is in `fs.c`.  `fdToInum` and `findOFTE` are the descriptor and
session-entry resolutions, `curs` is `g_oft[ofte].curs`, `size` the logical
size of an inode, `dbn` the map from file block number to device block number
(0 = unmapped), `disk` the content of each device block and `free` the device
blocks the allocator can still hand out. -/
structure Bfs where
  fdToInum : Int → Int
  findOFTE : Int → Int
  curs : Int → Int
  size : Int → Int
  dbn : Int → Int → Int
  disk : Int → Mem
  free : List Int

/-- Modelled from the spec: `bfsFdToInum`, descriptor to inode number. -/
def bfsFdToInum (st : Bfs) (fd : Int) : Int := st.fdToInum fd

/-- Modelled from the spec: `bfsFindOFTE`, inode number to the index of its
session-table entry. -/
def bfsFindOFTE (st : Bfs) (inum : Int) : Int := st.findOFTE inum

/-- Modelled from the spec: `bfsGetSize`, get-size(inode). -/
def bfsGetSize (st : Bfs) (inum : Int) : Int := st.size inum

/-- Modelled from the spec: `bfsSetSize`, set-size(inode, newSize). -/
def bfsSetSize (st : Bfs) (inum : Int) (n : Int) : Bfs :=
  { st with size := upd st.size inum n }

/-- Modelled from the spec: `bfsFbnToDbn`, file block number to device block
number, 0 when unmapped. -/
def bfsFbnToDbn (st : Bfs) (inum fbn : Int) : Int := st.dbn inum fbn

/-- Modelled from the spec: `bfsAllocBlock`, allocate-block(file-block-number):
a new device block number, recorded in the block map, or 0 on failure. -/
def bfsAllocBlock (st : Bfs) (inum fbn : Int) : Int × Bfs :=
  match st.free with
  | [] => (0, st)
  | d :: rest =>
    (d, { st with free := rest, dbn := upd st.dbn inum (upd (st.dbn inum) fbn d) })

/-- Modelled from the spec: `bioRead`, read-block(deviceBlockNumber, buffer). -/
def bioRead (st : Bfs) (dbn : Int) : Mem := st.disk dbn

/-- Modelled from the spec: `bioWrite`, write-block(deviceBlockNumber, buffer). -/
def bioWrite (st : Bfs) (dbn : Int) (blockBuf : Mem) : Bfs :=
  { st with disk := upd st.disk dbn blockBuf }

/-- Modelled from the spec: `bfsRead`, the content of the device block mapped
at a file block number; a block whose map entry is absent reads as zeros. -/
def bfsRead (st : Bfs) (inum fbn : Int) : Mem :=
  if bfsFbnToDbn st inum fbn = 0 then fun _ => 0 else bioRead st (bfsFbnToDbn st inum fbn)

/-- Modelled from the spec: `bfsTell`, the cursor of the session entry. -/
def bfsTell (st : Bfs) (fd : Int) : Int :=
  st.curs (bfsFindOFTE st (bfsFdToInum st fd))

/-! ## `fs.c` -/

/-- The result of `fsSeek`, `fsRead` and `fsWrite`: the outcome, the state
left behind and the caller's buffer. -/
structure Res where
  out : Outcome
  st : Bfs
  buf : Option Mem

/-- The function `fsSize` of `fs.c`. -/
def fsSize (st : Bfs) (fd : Int) : Int :=
  bfsGetSize st (bfsFdToInum st fd)

/-- The function `fsTell` of `fs.c`. -/
def fsTell (st : Bfs) (fd : Int) : Int := bfsTell st fd

/-- The function `fsSeek` of `fs.c`. -/
def fsSeek (st : Bfs) (fd offset whence : Int) : Outcome × Bfs :=
  if offset < 0 then (.fatal .EBADCURS, st) else
  let inum := bfsFdToInum st fd
  let ofte := bfsFindOFTE st inum
  if whence = SEEK_SET then
    (.ret 0, { st with curs := upd st.curs ofte offset })
  else if whence = SEEK_CUR then
    (.ret 0, { st with curs := upd st.curs ofte (wrap (st.curs ofte + offset)) })
  else if whence = SEEK_END then
    let end_ := fsSize st fd
    (.ret 0, { st with curs := upd st.curs ofte (wrap (end_ + offset)) })
  else (.fatal .EBADWHENCE, st)

/-- The body of the `while` loop of `fsRead` (one stride).  `dest` is the
caller's buffer; the source advances the pointer `dest` in step with
`bytesRead`, so the copy lands at index `bytesRead`.  The result is the new
`bytesRead` and the buffer. -/
def readBody (B : Int) (st : Bfs) (inum cursor numb : Int) (bytesRead : Int) (dest : Mem) :
    Int × Mem :=
  let currPos := wrap (cursor + bytesRead)
  let fbn := Int.tdiv currPos B
  let offset := Int.tmod currPos B
  let bytesLeft := wrap (numb - bytesRead)
  let bytesToRead := wrap (B - offset)
  let bytesToRead := if bytesToRead > bytesLeft then bytesLeft else bytesToRead
  let blockBuf := bfsRead st inum fbn
  let dest := memcpy dest bytesRead blockBuf offset bytesToRead
  (wrap (bytesRead + bytesToRead), dest)

/-- The `while` loop of `fsRead`.  The first argument bounds the number of
iterations; `none` means the bound was reached with the loop still running. -/
def readLoop (B : Int) (st : Bfs) (inum cursor numb : Int) :
    Nat → Int → Mem → Option (Int × Mem)
  | fuel, bytesRead, dest =>
    if bytesRead < numb then
      match fuel with
      | 0 => none
      | fuel + 1 =>
        readLoop B st inum cursor numb fuel
          (readBody B st inum cursor numb bytesRead dest).1
          (readBody B st inum cursor numb bytesRead dest).2
    else some (bytesRead, dest)

/-- The function `fsRead` of `fs.c`. -/
def fsRead (B : Int) (st : Bfs) (fd numb : Int) (buf : Option Mem) : Res :=
  if numb < 0 then ⟨.fatal .ENEGNUMB, st, buf⟩ else
  if numb = 0 then ⟨.ret 0, st, buf⟩ else
  match buf with
  | none => ⟨.fatal .ENULLPTR, st, none⟩
  | some dest =>
    let inum := bfsFdToInum st fd
    let ofte := bfsFindOFTE st inum
    let cursor := st.curs ofte
    let fileSize := bfsGetSize st inum
    if cursor = 49 * B ∧ numb ≥ 700 then
      let dest := memset dest 0 99 512
      let dest := memset dest 512 99 188
      let dest := memset dest 700 0 (wrap (numb - 700))
      ⟨.ret 700, { st with curs := upd st.curs ofte (wrap (st.curs ofte + 700)) }, some dest⟩
    else if cursor ≥ fileSize then ⟨.ret 0, st, some dest⟩
    else
      let numb := if wrap (cursor + numb) > fileSize then wrap (fileSize - cursor) else numb
      match readLoop B st inum cursor numb numb.toNat 0 dest with
      | none => ⟨.diverge, st, some dest⟩
      | some (bytesRead, dest) =>
        ⟨.ret bytesRead,
          { st with curs := upd st.curs ofte (wrap (st.curs ofte + bytesRead)) }, some dest⟩

/-- How the `while` loop of `fsWrite` ends. -/
inductive WLoop where
  | done (st : Bfs) (bytesWritten : Int)
  | full (st : Bfs)
  | fuelOut

/-- The body of the `while` loop of `fsWrite` (one stride).  `src` is the
caller's buffer; the source advances the pointer `src` in step with
`bytesWritten`, so the copy reads from index `bytesWritten`.  `blockBuf` is
filled in full (by `memset` or `bioRead`) before it is used.  The result is
the state at `FATAL(EDISKFULL)`, or the new state and the new `bytesWritten`. -/
def writeBody (B : Int) (inum cursor numb : Int) (src : Mem) (st : Bfs) (bytesWritten : Int) :
    Except Bfs (Bfs × Int) :=
  let currPos := wrap (cursor + bytesWritten)
  let fbn := Int.tdiv currPos B
  let offset := Int.tmod currPos B
  let bytesLeft := wrap (numb - bytesWritten)
  let bytesToWrite := wrap (B - offset)
  let bytesToWrite := if bytesToWrite > bytesLeft then bytesLeft else bytesToWrite
  let dbn := bfsFbnToDbn st inum fbn
  if dbn = 0 then
    let r := bfsAllocBlock st inum fbn
    let dbn := r.1
    let st := r.2
    if dbn = 0 then .error st else
    let blockBuf : Mem := memset (fun _ => 0) 0 0 B
    let blockBuf := memcpy blockBuf offset src bytesWritten bytesToWrite
    let st := bioWrite st dbn blockBuf
    .ok (st, wrap (bytesWritten + bytesToWrite))
  else
    let blockBuf : Mem :=
      if offset > 0 ∨ bytesToWrite < B then bioRead st dbn else memset (fun _ => 0) 0 0 B
    let blockBuf := memcpy blockBuf offset src bytesWritten bytesToWrite
    let st := bioWrite st dbn blockBuf
    .ok (st, wrap (bytesWritten + bytesToWrite))

/-- The `while` loop of `fsWrite`.  The first argument bounds the number of
iterations; `fuelOut` means the bound was reached with the loop still
running. -/
def writeLoop (B : Int) (inum cursor numb : Int) (src : Mem) :
    Nat → Bfs → Int → WLoop
  | fuel, st, bytesWritten =>
    if bytesWritten < numb then
      match fuel with
      | 0 => .fuelOut
      | fuel + 1 =>
        match writeBody B inum cursor numb src st bytesWritten with
        | .error st => .full st
        | .ok (st, bytesWritten) => writeLoop B inum cursor numb src fuel st bytesWritten
    else .done st bytesWritten

/-- The function `fsWrite` of `fs.c`. -/
def fsWrite (B : Int) (st : Bfs) (fd numb : Int) (buf : Option Mem) : Res :=
  if numb < 0 then ⟨.fatal .ENEGNUMB, st, buf⟩ else
  if numb = 0 then ⟨.ret 0, st, buf⟩ else
  match buf with
  | none => ⟨.fatal .ENULLPTR, st, none⟩
  | some src =>
    let inum := bfsFdToInum st fd
    let ofte := bfsFindOFTE st inum
    let cursor := st.curs ofte
    if cursor = 49 * B ∧ numb = 700 then
      let st1 : Bfs := { st with curs := upd st.curs ofte (wrap (st.curs ofte + numb)) }
      let fileSize := bfsGetSize st1 inum
      let st2 := if wrap (cursor + numb) > fileSize then
        bfsSetSize st1 inum (wrap (cursor + numb)) else st1
      ⟨.ret 0, st2, some (memset src 0 99 numb)⟩
    else
      match writeLoop B inum cursor numb src numb.toNat st 0 with
      | .fuelOut => ⟨.diverge, st, some src⟩
      | .full st => ⟨.fatal .EDISKFULL, st, some src⟩
      | .done st bytesWritten =>
        let st1 : Bfs :=
          { st with curs := upd st.curs ofte (wrap (st.curs ofte + bytesWritten)) }
        let fileSize := bfsGetSize st1 inum
        let st2 := if wrap (cursor + bytesWritten) > fileSize then
          bfsSetSize st1 inum (wrap (cursor + bytesWritten)) else st1
        ⟨.ret 0, st2, some src⟩

/-! ## Specification vocabulary -/

/-- The byte at logical position `x` of the file `inum`: the byte at offset
`x % B` of the block that `bfsRead` yields for file block `x / B`. -/
def fileByte (B : Int) (st : Bfs) (inum x : Int) : i8 :=
  bfsRead st inum (Int.tdiv x B) (Int.tmod x B)

/-- The length of the stride that starts `done` bytes into a transfer of
`numb` bytes at `cursor`: up to the end of the block, at most what is left. -/
def stride (B cursor numb done : Int) : Int :=
  if B - (cursor + done) % B > numb - done then numb - done else B - (cursor + done) % B

/-- Well-formed collaborator state: the free list has no duplicate and does
not hold block 0, no mapped block is free, and no device block is mapped
twice. -/
structure WF (st : Bfs) : Prop where
  free_nodup : st.free.Nodup
  free_nz : (0 : Int) ∉ st.free
  mapped_not_free : ∀ i f, st.dbn i f ∉ st.free
  inj : ∀ i f i' f', st.dbn i f ≠ 0 → st.dbn i f = st.dbn i' f' → i = i' ∧ f = f'

/-- The effect on the collaborator state of writing the bytes
`src[lo - c .. hi - c)` of a transfer that started at cursor `c` to the
positions `[lo, hi)` of file `inum`. -/
structure Wrote (B inum c : Int) (src : Mem) (lo hi : Int) (st st' : Bfs) : Prop where
  wf : WF st'
  fdToInum_eq : st'.fdToInum = st.fdToInum
  findOFTE_eq : st'.findOFTE = st.findOFTE
  curs_eq : st'.curs = st.curs
  size_eq : st'.size = st.size
  dbn_mapped : ∀ i f, st.dbn i f ≠ 0 → st'.dbn i f = st.dbn i f
  dbn_other : ∀ i f, st'.dbn i f ≠ st.dbn i f →
    i = inum ∧ ∃ x, lo ≤ x ∧ x < hi ∧ x / B = f
  disk_other : ∀ d j, st'.disk d j ≠ st.disk d j →
    d ≠ 0 ∧ ∃ x, lo ≤ x ∧ x < hi ∧ st'.dbn inum (x / B) = d
  byte : ∀ i x, 0 ≤ x →
    fileByte B st' i x = if i = inum ∧ lo ≤ x ∧ x < hi then src (x - c) else fileByte B st i x

/-- The block buffer of a stride over a mapped block: the block as read from
the device when the stride covers it in part, zeros when it covers it all. -/
def mergeBase (B : Int) (st : Bfs) (d off n : Int) : Mem :=
  if off > 0 ∨ n < B then bioRead st d else memset (fun _ => 0) 0 0 B

/-- The state after `bfsAllocBlock` has handed out `d`, leaving `rest`. -/
def allocated (st : Bfs) (inum fbn d : Int) (rest : List Int) : Bfs :=
  { st with free := rest, dbn := upd st.dbn inum (upd (st.dbn inum) fbn d) }

/-- The session table and the sizes are the same in both states. -/
structure Frame (st st' : Bfs) : Prop where
  fdToInum_eq : st'.fdToInum = st.fdToInum
  findOFTE_eq : st'.findOFTE = st.findOFTE
  curs_eq : st'.curs = st.curs
  size_eq : st'.size = st.size

/-! ## Concrete states used to evaluate the definitions -/

/-- A freshly formatted disk with one empty file open: descriptor, inode and
session entry are resolved by the identity, every cursor and size is 0, no
block is mapped, every block is zero and blocks 1 to 40 are free. -/
def fresh : Bfs :=
  { fdToInum := fun fd => fd
    findOFTE := fun inum => inum
    curs := fun _ => 0
    size := fun _ => 0
    dbn := fun _ _ => 0
    disk := fun _ _ => 0
    free := (List.range 40).map (fun n => (n : Int) + 1) }

/-- The bytes of the string `HelloWorld`, followed by zeros. -/
def helloWorld : Mem := fun j =>
  ([72, 101, 108, 108, 111, 87, 111, 114, 108, 100] : List Int).getD j.toNat 0

/-- The empty file of `fresh` with its cursor moved to 5 by `fsSeek`. -/
def atFive : Bfs := (fsSeek fresh 3 5 SEEK_SET).2

/-- The empty file of `fresh` with its cursor moved to `49 * 512` by `fsSeek`:
the start of file block 49 for blocks of 512 bytes. -/
def atBlock49 : Bfs := (fsSeek fresh 3 25088 SEEK_SET).2

/-- The byte at index `j` of the buffer a call leaves behind (0 for `NULL`). -/
def Res.byte (r : Res) (j : Int) : i8 :=
  match r.buf with
  | some m => m j
  | none => 0

/-- A file of three blocks of 4 bytes holding `HelloWorld` and two zeros, with
the cursor moved to 2 by `fsSeek`. -/
def atTwo : Bfs := (fsSeek (fsWrite 4 fresh 3 12 (some helloWorld)).st 3 2 SEEK_SET).2

/-- Eight bytes of value 1 to 8, followed by zeros. -/
def oneToEight : Mem := fun j => if 0 ≤ j ∧ j < 8 then j + 1 else 0

/-- The calls of the round trip: `fsWrite(fd, N, src)`, then `fsSeek` back to
the cursor the write started from, then `fsRead(fd, N, out)`. -/
def writeSeekRead (B : Int) (st : Bfs) (fd N : Int) (src out : Mem) : Res :=
  fsRead B (fsSeek (fsWrite B st fd N (some src)).st fd (fsTell st fd) SEEK_SET).2 fd N
    (some out)

/-- The state after `fsSeek(fd, p, SEEK_SET)` and `fsWrite(fd, N, src)`. -/
def seekWrite (B : Int) (st : Bfs) (fd p N : Int) (src : Mem) : Res :=
  fsWrite B (fsSeek st fd p SEEK_SET).2 fd N (some src)

/-- The calls of the sparse-file scenario: `fsSeek(fd, p, SEEK_SET)`,
`fsWrite(fd, N, src)`, `fsSeek(fd, 0, SEEK_SET)`, `fsRead(fd, p + N, out)`. -/
def seekWriteRead (B : Int) (st : Bfs) (fd p N : Int) (src out : Mem) : Res :=
  fsRead B (fsSeek (seekWrite B st fd p N src).st fd 0 SEEK_SET).2 fd (p + N) (some out)

/-! ## The two paths of `fsRead` and `fsWrite` -/

/-- The special-cased branch of `fsRead` (the body of the `if` on
`cursor == 49 * BYTESPERBLOCK && numb >= 700`): 700 bytes of value 99, zeros
after them, the cursor moved by 700, 700 returned. -/
def readFabricated (st : Bfs) (fd numb : Int) (dest : Mem) : Res :=
  let inum := bfsFdToInum st fd
  let ofte := bfsFindOFTE st inum
  let dest := memset dest 0 99 512
  let dest := memset dest 512 99 188
  let dest := memset dest 700 0 (wrap (numb - 700))
  ⟨.ret 700, { st with curs := upd st.curs ofte (wrap (st.curs ofte + 700)) }, some dest⟩

/-- The block-mapped path of `fsRead` (what follows the special-cased branch):
the end-of-file test, the clamp, the `while` loop and the cursor update. -/
def readMapped (B : Int) (st : Bfs) (fd numb : Int) (dest : Mem) : Res :=
  let inum := bfsFdToInum st fd
  let ofte := bfsFindOFTE st inum
  let cursor := st.curs ofte
  let fileSize := bfsGetSize st inum
  if cursor ≥ fileSize then ⟨.ret 0, st, some dest⟩
  else
    let numb := if wrap (cursor + numb) > fileSize then wrap (fileSize - cursor) else numb
    match readLoop B st inum cursor numb numb.toNat 0 dest with
    | none => ⟨.diverge, st, some dest⟩
    | some (bytesRead, dest) =>
      ⟨.ret bytesRead,
        { st with curs := upd st.curs ofte (wrap (st.curs ofte + bytesRead)) }, some dest⟩

/-- The special-cased branch of `fsWrite` (the body of the `if` on
`cursor == 49 * BYTESPERBLOCK && numb == 700`): cursor and size move, no block
is written, the caller's buffer is filled with the byte 99. -/
def writeFabricated (st : Bfs) (fd numb : Int) (src : Mem) : Res :=
  let inum := bfsFdToInum st fd
  let ofte := bfsFindOFTE st inum
  let cursor := st.curs ofte
  let st1 : Bfs := { st with curs := upd st.curs ofte (wrap (st.curs ofte + numb)) }
  let fileSize := bfsGetSize st1 inum
  let st2 := if wrap (cursor + numb) > fileSize then
    bfsSetSize st1 inum (wrap (cursor + numb)) else st1
  ⟨.ret 0, st2, some (memset src 0 99 numb)⟩

/-- The block-mapped path of `fsWrite` (what follows the special-cased
branch): the `while` loop, the cursor update and the size update. -/
def writeMapped (B : Int) (st : Bfs) (fd numb : Int) (src : Mem) : Res :=
  let inum := bfsFdToInum st fd
  let ofte := bfsFindOFTE st inum
  let cursor := st.curs ofte
  match writeLoop B inum cursor numb src numb.toNat st 0 with
  | .fuelOut => ⟨.diverge, st, some src⟩
  | .full st => ⟨.fatal .EDISKFULL, st, some src⟩
  | .done st bytesWritten =>
    let st1 : Bfs :=
      { st with curs := upd st.curs ofte (wrap (st.curs ofte + bytesWritten)) }
    let fileSize := bfsGetSize st1 inum
    let st2 := if wrap (cursor + bytesWritten) > fileSize then
      bfsSetSize st1 inum (wrap (cursor + bytesWritten)) else st1
    ⟨.ret 0, st2, some src⟩

/-! ## Sequences of calls on one descriptor -/

/-- One call of the API on a descriptor: `fsSeek(fd, offset, whence)`,
`fsRead(fd, numb, buf)` or `fsWrite(fd, numb, buf)`. -/
inductive Call where
  | seek (offset whence : Int)
  | read (numb : Int) (buf : Option Mem)
  | write (numb : Int) (buf : Option Mem)

/-- The outcome of a call and the state it leaves behind. -/
def call (B : Int) (st : Bfs) (fd : Int) : Call → Outcome × Bfs
  | .seek offset whence => fsSeek st fd offset whence
  | .read numb buf => ((fsRead B st fd numb buf).out, (fsRead B st fd numb buf).st)
  | .write numb buf => ((fsWrite B st fd numb buf).out, (fsWrite B st fd numb buf).st)

/-- The state after a sequence of calls that all return; `none` as soon as one
of them does not return. -/
def run (B : Int) (fd : Int) : Bfs → List Call → Option Bfs
  | st, [] => some st
  | st, c :: cs =>
    match (call B st fd c).1 with
    | .ret _ => run B fd (call B st fd c).2 cs
    | _ => none

/-- The `i32` additions of a call stay at or below `INT_MAX`: cursor plus
offset for `SEEK_CUR`, size plus offset for `SEEK_END`, cursor plus count for
`fsRead` and `fsWrite`. -/
def inRange (st : Bfs) (fd : Int) : Call → Prop
  | .seek offset whence =>
    (whence = SEEK_CUR → fsTell st fd + offset ≤ 2147483647) ∧
    (whence = SEEK_END → fsSize st fd + offset ≤ 2147483647)
  | .read numb _ => fsTell st fd + numb ≤ 2147483647
  | .write numb _ => fsTell st fd + numb ≤ 2147483647

/-- Every call of the sequence is in range in the state it is made in. -/
def allInRange (B : Int) (fd : Int) : Bfs → List Call → Prop
  | _, [] => True
  | st, c :: cs => inRange st fd c ∧ allInRange B fd (call B st fd c).2 cs

/-! ## A log of the iterations of the two loops -/

/-- What one iteration of a loop works on: the file block number, the offset
inside the block, the length of the stride, what `bfsFbnToDbn` returned for the
block, and the device block then used (for `fsWrite` on an unmapped block:
what `bfsAllocBlock` returned). -/
structure Iter where
  fbn : Int
  offset : Int
  len : Int
  lookup : Int
  dbn : Int

/-- The stride was over an unmapped block for which `bfsAllocBlock` returned
0. -/
def Iter.allocFailed (it : Iter) : Prop := it.lookup = 0 ∧ it.dbn = 0

/-- The log entry of one iteration of the loop of `fsWrite`, computed as
`writeBody` computes it. -/
def writeBodyLog (B : Int) (inum cursor numb : Int) (st : Bfs) (bytesWritten : Int) : Iter :=
  let currPos := wrap (cursor + bytesWritten)
  let fbn := Int.tdiv currPos B
  let offset := Int.tmod currPos B
  let bytesLeft := wrap (numb - bytesWritten)
  let bytesToWrite := wrap (B - offset)
  let bytesToWrite := if bytesToWrite > bytesLeft then bytesLeft else bytesToWrite
  let dbn := bfsFbnToDbn st inum fbn
  ⟨fbn, offset, bytesToWrite, dbn, if dbn = 0 then (bfsAllocBlock st inum fbn).1 else dbn⟩

/-- The log of the iterations `writeLoop` runs, in order: the same tests and
the same body as `writeLoop`, one entry for each iteration started. -/
def writeLoopLog (B : Int) (inum cursor numb : Int) (src : Mem) :
    Nat → Bfs → Int → List Iter
  | fuel, st, bytesWritten =>
    if bytesWritten < numb then
      match fuel with
      | 0 => []
      | fuel + 1 =>
        writeBodyLog B inum cursor numb st bytesWritten ::
          match writeBody B inum cursor numb src st bytesWritten with
          | .error _ => []
          | .ok (st, bytesWritten) => writeLoopLog B inum cursor numb src fuel st bytesWritten
    else []

/-- The log entry of one iteration of the loop of `fsRead`, computed as
`readBody` computes it. -/
def readBodyLog (B : Int) (st : Bfs) (inum cursor numb : Int) (bytesRead : Int) : Iter :=
  let currPos := wrap (cursor + bytesRead)
  let fbn := Int.tdiv currPos B
  let offset := Int.tmod currPos B
  let bytesLeft := wrap (numb - bytesRead)
  let bytesToRead := wrap (B - offset)
  let bytesToRead := if bytesToRead > bytesLeft then bytesLeft else bytesToRead
  ⟨fbn, offset, bytesToRead, bfsFbnToDbn st inum fbn, bfsFbnToDbn st inum fbn⟩

/-- The log of the iterations `readLoop` runs, in order: the same tests and
the same body as `readLoop`, one entry for each iteration. -/
def readLoopLog (B : Int) (st : Bfs) (inum cursor numb : Int) :
    Nat → Int → Mem → List Iter
  | fuel, bytesRead, dest =>
    if bytesRead < numb then
      match fuel with
      | 0 => []
      | fuel + 1 =>
        readBodyLog B st inum cursor numb bytesRead ::
          readLoopLog B st inum cursor numb fuel
            (readBody B st inum cursor numb bytesRead dest).1
            (readBody B st inum cursor numb bytesRead dest).2
    else []

/-- The disk of `fresh` with no free block left. -/
def fullDisk : Bfs := { fresh with free := [] }

/-- What the log `L` of a write loop started `k` bytes into a transfer of `N`
bytes at cursor `c` looks like, `W` being how the loop ended and `st0` the
state at the start of the transfer: every stride stays inside one block; the
blocks worked on lie in the range of the transfer, were looked up as `st0`
maps them and are visited in increasing order; there are at most as many
iterations as blocks in the range; and either the loop ends with `N` bytes
done, no allocation failed, the strides adding up to what was left and every
block of the range visited, or it stops at an allocation that failed. -/
structure LogSpec (B inum c N : Int) (st0 : Bfs) (k : Int) (L : List Iter) (W : WLoop) :
    Prop where
  strides : ∀ it ∈ L, 1 ≤ it.len ∧ it.len ≤ B ∧ 0 ≤ it.offset ∧ it.offset + it.len ≤ B
  blocks : ∀ it ∈ L, (c + k) / B ≤ it.fbn ∧ it.fbn ≤ (c + N - 1) / B ∧
    it.lookup = st0.dbn inum it.fbn
  increasing : (L.map Iter.fbn).Pairwise (· < ·)
  count : k < N → (L.length : Int) + (c + k) / B ≤ (c + N - 1) / B + 1
  ending :
    ((∃ st', W = .done st' N) ∧ (∀ it ∈ L, ¬ it.allocFailed) ∧
      (L.map Iter.len).sum = N - k ∧
      (∀ f, k < N → (c + k) / B ≤ f → f ≤ (c + N - 1) / B → ∃ it ∈ L, it.fbn = f)) ∨
    ((∃ st', W = .full st') ∧ ∃ it ∈ L, it.allocFailed)

instance (it : Iter) : Decidable it.allocFailed := by
  unfold Iter.allocFailed; infer_instance

/-! ## States near the end of the `i32` range -/

/-- The empty file of `fresh` with its cursor moved to `INT_MAX` by `fsSeek`. -/
def atIntMax : Bfs := (fsSeek fresh 3 2147483647 SEEK_SET).2

/-- The empty file of `fresh` with its cursor moved to `INT_MAX - 3` by
`fsSeek`. -/
def nearIntMax : Bfs := (fsSeek fresh 3 2147483644 SEEK_SET).2

/-- A file of size 2147483010 (one byte written at 2147483009 after a seek)
with its cursor moved to 2147483000 by `fsSeek`. -/
def bigFile : Bfs :=
  (fsSeek (fsWrite 512 (fsSeek fresh 3 2147483009 SEEK_SET).2 3 1 (some helloWorld)).st 3
    2147483000 SEEK_SET).2

/-! ## Arithmetic of strides -/

theorem wrap_eq {x : Int} (h : I32 x) : wrap x = x := by
  unfold wrap; unfold I32 at h; omega

theorem wrap_eq_of_bounds {x : Int} (h1 : 0 ≤ x) (h2 : x ≤ 2147483647) : wrap x = x :=
  wrap_eq ⟨by omega, h2⟩

theorem emod_bounds (x : Int) {B : Int} (hB : 0 < B) : 0 ≤ x % B ∧ x % B < B :=
  ⟨Int.emod_nonneg x (by omega), Int.emod_lt_of_pos x hB⟩

theorem stride_pos {B c N k : Int} (hB : 0 < B) (hk : k < N) : 1 ≤ stride B c N k := by
  have h := emod_bounds (c + k) hB
  unfold stride; split <;> omega

theorem stride_le_left {B c N k : Int} : stride B c N k ≤ N - k := by
  unfold stride; split <;> omega

theorem stride_le_block {B c N k : Int} : stride B c N k ≤ B - (c + k) % B := by
  unfold stride; split <;> omega

theorem stride_le_B {B c N k : Int} (hB : 0 < B) : stride B c N k ≤ B := by
  have h := emod_bounds (c + k) hB
  have := @stride_le_block B c N k
  omega

/-- A position lies in a stride that stays inside one block exactly when it is
in the same block and its offset lies in the stride's offsets. -/
theorem mem_stride_iff {B p n x : Int} (hB : 0 < B) (hn : n ≤ B - p % B) :
    (p ≤ x ∧ x < p + n) ↔ (x / B = p / B ∧ p % B ≤ x % B ∧ x % B < p % B + n) := by
  have hp := Int.ediv_add_emod p B
  have hx := Int.ediv_add_emod x B
  have bp := emod_bounds p hB
  constructor
  · rintro ⟨h1, h2⟩
    have key := (@Int.ediv_emod_unique x B (x - B * (p / B)) (p / B) hB).2
      ⟨by ring, by linarith, by linarith⟩
    rw [key.1, key.2]
    exact ⟨rfl, by linarith, by linarith⟩
  · rintro ⟨h1, h2, h3⟩
    rw [h1] at hx
    constructor <;> linarith

theorem offset_in_stride {B p n x : Int} (hB : 0 < B) (hn : n ≤ B - p % B)
    (h1 : p ≤ x) (h2 : x < p + n) : x / B = p / B ∧ x % B = p % B + (x - p) := by
  have h := (mem_stride_iff hB hn).1 ⟨h1, h2⟩
  have hp := Int.ediv_add_emod p B
  have hx := Int.ediv_add_emod x B
  rw [h.1] at hx
  exact ⟨h.1, by linarith⟩

/-! ## The read loop -/

theorem readBody_eq {B : Int} (st : Bfs) (inum : Int) {c N k : Int} (dest : Mem)
    (hB : 0 < B) (hB2 : B ≤ 2147483647) (hc : 0 ≤ c) (hk : 0 ≤ k) (hkN : k < N)
    (hN : c + N ≤ 2147483647) :
    readBody B st inum c N k dest =
      (k + stride B c N k,
        memcpy dest k (bfsRead st inum ((c + k) / B)) ((c + k) % B) (stride B c N k)) := by
  have hm := emod_bounds (c + k) hB
  have e1 : wrap (c + k) = c + k := wrap_eq_of_bounds (by omega) (by omega)
  have e2 : Int.tdiv (c + k) B = (c + k) / B := Int.tdiv_eq_ediv (by omega) (by omega)
  have e3 : Int.tmod (c + k) B = (c + k) % B := Int.tmod_eq_emod (by omega) (by omega)
  have e4 : wrap (N - k) = N - k := wrap_eq_of_bounds (by omega) (by omega)
  have e5 : wrap (B - (c + k) % B) = B - (c + k) % B := wrap_eq_of_bounds (by omega) (by omega)
  have s1 := stride_pos (c := c) hB hkN
  have s2 := @stride_le_left B c N k
  have e6 : wrap (k + stride B c N k) = k + stride B c N k :=
    wrap_eq_of_bounds (by omega) (by omega)
  unfold readBody
  simp only [e1, e2, e3, e4, e5]
  show (wrap (k + stride B c N k), _) = _
  rw [e6]
  rfl

theorem fileByte_eq {B : Int} (st : Bfs) (inum : Int) {x : Int} (hB : 0 < B) (hx : 0 ≤ x) :
    fileByte B st inum x = bfsRead st inum (x / B) (x % B) := by
  unfold fileByte
  rw [Int.tdiv_eq_ediv hx (by omega), Int.tmod_eq_emod hx (by omega)]

/-- The read loop ends with `bytesRead = numb`, having copied the file's bytes
at positions `cursor + j` to the indices `j` that were still to be read. -/
theorem readLoop_spec {B : Int} (st : Bfs) (inum : Int) {c N : Int}
    (hB : 0 < B) (hB2 : B ≤ 2147483647) (hc : 0 ≤ c) (hN : c + N ≤ 2147483647) :
    ∀ (fuel : Nat) (k : Int) (dest : Mem), 0 ≤ k → k ≤ N → N - k ≤ fuel →
      ∃ dest', readLoop B st inum c N fuel k dest = some (N, dest') ∧
        ∀ j, dest' j = if k ≤ j ∧ j < N then fileByte B st inum (c + j) else dest j := by
  intro fuel
  induction fuel with
  | zero =>
    intro k dest hk hkN hf
    have : k = N := by omega
    subst this
    refine ⟨dest, ?_, ?_⟩
    · unfold readLoop; simp
    · intro j
      have : ¬ (k ≤ j ∧ j < k) := by omega
      simp [this]
  | succ fuel ih =>
    intro k dest hk hkN hf
    by_cases hlt : k < N
    · have s1 := stride_pos (c := c) hB hlt
      have s2 := @stride_le_left B c N k
      have s3 := @stride_le_block B c N k
      obtain ⟨dest', h1, h2⟩ := ih (k + stride B c N k)
        (memcpy dest k (bfsRead st inum ((c + k) / B)) ((c + k) % B) (stride B c N k))
        (by omega) (by omega) (by push_cast at hf; omega)
      refine ⟨dest', ?_, ?_⟩
      · rw [readLoop]
        simp only [hlt, if_true]
        rw [readBody_eq st inum dest hB hB2 hc hk hlt hN]
        exact h1
      · intro j
        rw [h2 j]
        by_cases hj : k + stride B c N k ≤ j ∧ j < N
        · have : k ≤ j ∧ j < N := by omega
          simp [hj, this]
        · simp only [hj, if_false]
          unfold memcpy
          by_cases hj2 : k ≤ j ∧ j < k + stride B c N k
          · have : k ≤ j ∧ j < N := by omega
            simp only [hj2, this, and_self, if_true]
            have ho := offset_in_stride (x := c + j) hB s3 (by omega) (by omega)
            rw [fileByte_eq st inum hB (by omega), ho.1, ho.2]
            congr 1
            ring
          · have : ¬ (k ≤ j ∧ j < N) := by omega
            simp [hj2, this]
    · have : k = N := by omega
      subst this
      refine ⟨dest, ?_, ?_⟩
      · unfold readLoop; simp
      · intro j
        have : ¬ (k ≤ j ∧ j < k) := by omega
        simp [this]

/-! ## One stride of the write loop -/

theorem memset_zero (B : Int) : memset (fun _ => 0) 0 0 B = fun _ => 0 := by
  funext j
  simp [memset]

theorem writeBody_mapped {B : Int} (st : Bfs) (inum : Int) {c N k : Int} (src : Mem)
    (hB : 0 < B) (hB2 : B ≤ 2147483647) (hc : 0 ≤ c) (hk : 0 ≤ k) (hkN : k < N)
    (hN : c + N ≤ 2147483647) (hd : st.dbn inum ((c + k) / B) ≠ 0) :
    writeBody B inum c N src st k =
      .ok (bioWrite st (st.dbn inum ((c + k) / B))
            (memcpy (mergeBase B st (st.dbn inum ((c + k) / B)) ((c + k) % B) (stride B c N k))
              ((c + k) % B) src k (stride B c N k)),
           k + stride B c N k) := by
  have hm := emod_bounds (c + k) hB
  have e1 : wrap (c + k) = c + k := wrap_eq_of_bounds (by omega) (by omega)
  have e2 : Int.tdiv (c + k) B = (c + k) / B := Int.tdiv_eq_ediv (by omega) (by omega)
  have e3 : Int.tmod (c + k) B = (c + k) % B := Int.tmod_eq_emod (by omega) (by omega)
  have e4 : wrap (N - k) = N - k := wrap_eq_of_bounds (by omega) (by omega)
  have e5 : wrap (B - (c + k) % B) = B - (c + k) % B := wrap_eq_of_bounds (by omega) (by omega)
  have s1 := stride_pos (c := c) hB hkN
  have s2 := @stride_le_left B c N k
  have e6 : wrap (k + stride B c N k) = k + stride B c N k :=
    wrap_eq_of_bounds (by omega) (by omega)
  have e7 : (if B - (c + k) % B > N - k then N - k else B - (c + k) % B) = stride B c N k := rfl
  unfold writeBody
  simp only [e1, e2, e3, e4, e5, e7, e6, bfsFbnToDbn, hd, if_false, mergeBase]

theorem writeBody_alloc {B : Int} (st : Bfs) (inum : Int) {c N k : Int} (src : Mem)
    (hB : 0 < B) (hB2 : B ≤ 2147483647) (hc : 0 ≤ c) (hk : 0 ≤ k) (hkN : k < N)
    (hN : c + N ≤ 2147483647) (hd : st.dbn inum ((c + k) / B) = 0)
    {d : Int} {rest : List Int} (hfree : st.free = d :: rest) (hd0 : d ≠ 0) :
    writeBody B inum c N src st k =
      .ok (bioWrite (allocated st inum ((c + k) / B) d rest) d
            (memcpy (fun _ => 0) ((c + k) % B) src k (stride B c N k)),
           k + stride B c N k) := by
  have hm := emod_bounds (c + k) hB
  have e1 : wrap (c + k) = c + k := wrap_eq_of_bounds (by omega) (by omega)
  have e2 : Int.tdiv (c + k) B = (c + k) / B := Int.tdiv_eq_ediv (by omega) (by omega)
  have e3 : Int.tmod (c + k) B = (c + k) % B := Int.tmod_eq_emod (by omega) (by omega)
  have e4 : wrap (N - k) = N - k := wrap_eq_of_bounds (by omega) (by omega)
  have e5 : wrap (B - (c + k) % B) = B - (c + k) % B := wrap_eq_of_bounds (by omega) (by omega)
  have s1 := stride_pos (c := c) hB hkN
  have s2 := @stride_le_left B c N k
  have e6 : wrap (k + stride B c N k) = k + stride B c N k :=
    wrap_eq_of_bounds (by omega) (by omega)
  have e7 : (if B - (c + k) % B > N - k then N - k else B - (c + k) % B) = stride B c N k := rfl
  unfold writeBody
  simp only [e1, e2, e3, e4, e5, e7, e6, bfsFbnToDbn, hd, if_true, bfsAllocBlock, hfree, hd0,
    if_false, memset_zero, allocated]

theorem writeBody_full {B : Int} (st : Bfs) (inum : Int) {c N k : Int} (src : Mem)
    (hB : 0 < B) (hc : 0 ≤ c) (hk : 0 ≤ k)
    (hN : c + N ≤ 2147483647) (hkN : k < N) (hd : st.dbn inum ((c + k) / B) = 0)
    (hfree : st.free = []) :
    writeBody B inum c N src st k = .error st := by
  have e1 : wrap (c + k) = c + k := wrap_eq_of_bounds (by omega) (by omega)
  have e2 : Int.tdiv (c + k) B = (c + k) / B := Int.tdiv_eq_ediv (by omega) (by omega)
  unfold writeBody
  simp only [e1, e2, bfsFbnToDbn, hd, if_true, bfsAllocBlock, hfree]

theorem upd_same {α : Type} (f : Int → α) (k : Int) (v : α) : upd f k v k = v := by
  simp [upd]

theorem upd_ne {α : Type} (f : Int → α) {j k : Int} (v : α) (h : j ≠ k) : upd f k v j = f j := by
  simp [upd, h]

theorem memcpy_apply (dst : Mem) (doff : Int) (src : Mem) (soff n j : Int) :
    memcpy dst doff src soff n j =
      if doff ≤ j ∧ j < doff + n then src (soff + (j - doff)) else dst j := rfl

theorem bfsRead_apply (st : Bfs) (i f j : Int) :
    bfsRead st i f j = if st.dbn i f = 0 then 0 else st.disk (st.dbn i f) j := by
  unfold bfsRead bfsFbnToDbn bioRead
  split <;> rfl

/-- A stride over a mapped block writes its bytes and nothing else. -/
theorem wrote_mapped {B : Int} (hB : 0 < B) (st : Bfs) (hwf : WF st) (inum c k n : Int)
    (src : Mem) (hn1 : 1 ≤ n) (hn : n ≤ B - (c + k) % B)
    (hd : st.dbn inum ((c + k) / B) ≠ 0) :
    Wrote B inum c src (c + k) (c + k + n) st
      (bioWrite st (st.dbn inum ((c + k) / B))
        (memcpy (mergeBase B st (st.dbn inum ((c + k) / B)) ((c + k) % B) n)
          ((c + k) % B) src k n)) := by
  have hm := emod_bounds (c + k) hB
  refine ⟨⟨hwf.free_nodup, hwf.free_nz, hwf.mapped_not_free, hwf.inj⟩, rfl, rfl, rfl, rfl,
    fun _ _ _ => rfl, fun i f h => absurd rfl h, ?_, ?_⟩
  · intro d j h
    have hdd : d = st.dbn inum ((c + k) / B) := by
      by_contra hne
      apply h
      simp [bioWrite, upd, hne]
    subst hdd
    exact ⟨hd, c + k, le_refl _, by omega, rfl⟩
  · intro i x hx
    rw [fileByte_eq _ _ hB hx, fileByte_eq _ _ hB hx, bfsRead_apply, bfsRead_apply]
    have hxm := emod_bounds x hB
    show (if st.dbn i (x / B) = 0 then 0
      else upd st.disk (st.dbn inum ((c + k) / B)) _ (st.dbn i (x / B)) (x % B)) = _
    by_cases hsame : st.dbn i (x / B) = st.dbn inum ((c + k) / B)
    · have hif := hwf.inj inum ((c + k) / B) i (x / B) hd hsame.symm
      obtain ⟨hi, hf⟩ := hif
      subst hi
      have hiff := @mem_stride_iff B (c + k) n x hB hn
      rw [hsame, if_neg hd, if_neg hd, upd_same, memcpy_apply]
      by_cases hin : c + k ≤ x ∧ x < c + k + n
      · have ho := offset_in_stride hB hn hin.1 hin.2
        have hin2 := hiff.1 hin
        rw [if_pos ⟨hin2.2.1, hin2.2.2⟩, if_pos ⟨rfl, hin.1, hin.2⟩]
        congr 1
        rw [ho.2]; ring
      · have hin2 : ¬ ((c + k) % B ≤ x % B ∧ x % B < (c + k) % B + n) := by
          intro h
          exact hin (hiff.2 ⟨hf.symm, h.1, h.2⟩)
        have hin3 : ¬ (inum = inum ∧ c + k ≤ x ∧ x < c + k + n) := fun h => hin h.2
        rw [if_neg hin2, if_neg hin3]
        unfold mergeBase
        by_cases hpart : (c + k) % B > 0 ∨ n < B
        · rw [if_pos hpart]; rfl
        · exfalso
          apply hin2
          constructor <;> omega
    · have hcond : ¬ (i = inum ∧ c + k ≤ x ∧ x < c + k + n) := by
        rintro ⟨hi, h1, h2⟩
        subst hi
        have ho := offset_in_stride hB hn h1 h2
        exact hsame (by rw [ho.1])
      rw [if_neg hcond, upd_ne _ _ hsame]

/-- The allocator keeps the collaborator state well formed. -/
theorem wf_allocated {st : Bfs} (hwf : WF st) (inum fbn : Int) {d : Int} {rest : List Int}
    (hfree : st.free = d :: rest) (hun : st.dbn inum fbn = 0) :
    WF (allocated st inum fbn d rest) := by
  have hnd := hwf.free_nodup
  rw [hfree] at hnd
  have hd_notin : d ∉ rest := (List.nodup_cons.1 hnd).1
  have hd0 : d ≠ 0 := by
    intro h
    apply hwf.free_nz
    rw [hfree, h]
    exact List.mem_cons_self _ _
  have hmap : ∀ i f, (allocated st inum fbn d rest).dbn i f =
      if i = inum ∧ f = fbn then d else st.dbn i f := by
    intro i f
    show upd st.dbn inum (upd (st.dbn inum) fbn d) i f = _
    by_cases hi : i = inum
    · subst hi
      rw [upd_same]
      by_cases hf : f = fbn
      · subst hf
        rw [upd_same, if_pos ⟨rfl, rfl⟩]
      · rw [upd_ne _ _ hf, if_neg (fun h => hf h.2)]
    · rw [upd_ne _ _ hi, if_neg (fun h => hi h.1)]
  have hold : ∀ i f, st.dbn i f ≠ d := by
    intro i f h
    apply hwf.mapped_not_free i f
    rw [hfree, h]
    exact List.mem_cons_self _ _
  refine ⟨(List.nodup_cons.1 hnd).2, ?_, ?_, ?_⟩
  · intro h
    apply hwf.free_nz
    rw [hfree]
    exact List.mem_cons_of_mem _ h
  · intro i f
    rw [hmap]
    show _ ∉ rest
    split
    · exact hd_notin
    · intro h
      apply hwf.mapped_not_free i f
      rw [hfree]
      exact List.mem_cons_of_mem _ h
  · intro i f i' f'
    rw [hmap, hmap]
    by_cases h1 : i = inum ∧ f = fbn <;> by_cases h2 : i' = inum ∧ f' = fbn
    · intro _ _
      exact ⟨h1.1.trans h2.1.symm, h1.2.trans h2.2.symm⟩
    · rw [if_pos h1, if_neg h2]
      intro _ h
      exact absurd h.symm (hold i' f')
    · rw [if_neg h1, if_pos h2]
      intro _ h
      exact absurd h (hold i f)
    · rw [if_neg h1, if_neg h2]
      exact hwf.inj i f i' f'

theorem allocated_dbn (st : Bfs) (inum fbn d : Int) (rest : List Int) (i f : Int) :
    (allocated st inum fbn d rest).dbn i f = if i = inum ∧ f = fbn then d else st.dbn i f := by
  show upd st.dbn inum (upd (st.dbn inum) fbn d) i f = _
  by_cases hi : i = inum
  · subst hi
    rw [upd_same]
    by_cases hf : f = fbn
    · subst hf
      rw [upd_same, if_pos ⟨rfl, rfl⟩]
    · rw [upd_ne _ _ hf, if_neg (fun h => hf h.2)]
  · rw [upd_ne _ _ hi, if_neg (fun h => hi h.1)]

/-- A stride over an unmapped block maps a fresh zero block holding its bytes
and changes nothing else. -/
theorem wrote_alloc {B : Int} (hB : 0 < B) (st : Bfs) (hwf : WF st) (inum c k n : Int)
    (src : Mem) (hn1 : 1 ≤ n) (hn : n ≤ B - (c + k) % B)
    (hun : st.dbn inum ((c + k) / B) = 0) {d : Int} {rest : List Int}
    (hfree : st.free = d :: rest) :
    Wrote B inum c src (c + k) (c + k + n) st
      (bioWrite (allocated st inum ((c + k) / B) d rest) d
        (memcpy (fun _ => 0) ((c + k) % B) src k n)) := by
  have hd0 : d ≠ 0 := by
    intro h
    apply hwf.free_nz
    rw [hfree, h]
    exact List.mem_cons_self _ _
  have hold : ∀ i f, st.dbn i f ≠ d := by
    intro i f h
    apply hwf.mapped_not_free i f
    rw [hfree, h]
    exact List.mem_cons_self _ _
  have hwf2 := wf_allocated hwf inum ((c + k) / B) hfree hun
  refine ⟨⟨hwf2.free_nodup, hwf2.free_nz, hwf2.mapped_not_free, hwf2.inj⟩, rfl, rfl, rfl, rfl,
    ?_, ?_, ?_, ?_⟩
  · intro i f hne
    show (allocated st inum ((c + k) / B) d rest).dbn i f = _
    rw [allocated_dbn, if_neg]
    rintro ⟨hi, hf⟩
    subst hi; subst hf
    exact hne hun
  · intro i f hne
    have hne2 : (allocated st inum ((c + k) / B) d rest).dbn i f ≠ st.dbn i f := hne
    rw [allocated_dbn] at hne2
    by_cases hif : i = inum ∧ f = (c + k) / B
    · exact ⟨hif.1, c + k, le_refl _, by omega, hif.2.symm⟩
    · rw [if_neg hif] at hne2
      exact absurd rfl hne2
  · intro d' j h
    have hdd : d' = d := by
      by_contra hne
      apply h
      show upd st.disk d _ d' j = _
      rw [upd_ne _ _ hne]
    subst hdd
    refine ⟨hd0, c + k, le_refl _, by omega, ?_⟩
    show (allocated st inum ((c + k) / B) d' rest).dbn inum ((c + k) / B) = d'
    rw [allocated_dbn, if_pos ⟨rfl, rfl⟩]
  · intro i x hx
    rw [fileByte_eq _ _ hB hx, fileByte_eq _ _ hB hx, bfsRead_apply, bfsRead_apply]
    show (if (allocated st inum ((c + k) / B) d rest).dbn i (x / B) = 0 then 0
      else upd st.disk d _ ((allocated st inum ((c + k) / B) d rest).dbn i (x / B)) (x % B)) = _
    have hiff := @mem_stride_iff B (c + k) n x hB hn
    by_cases hblk : i = inum ∧ x / B = (c + k) / B
    · obtain ⟨hi, hf⟩ := hblk
      subst hi
      have hval : (allocated st i ((c + k) / B) d rest).dbn i (x / B) = d := by
        rw [allocated_dbn, if_pos ⟨rfl, hf⟩]
      have hold0 : st.dbn i (x / B) = 0 := by rw [hf]; exact hun
      rw [hval, if_neg hd0, upd_same, memcpy_apply, if_pos hold0]
      by_cases hin : c + k ≤ x ∧ x < c + k + n
      · have ho := offset_in_stride hB hn hin.1 hin.2
        have hin2 := hiff.1 hin
        rw [if_pos ⟨hin2.2.1, hin2.2.2⟩, if_pos ⟨rfl, hin.1, hin.2⟩]
        congr 1
        rw [ho.2]; ring
      · have hin2 : ¬ ((c + k) % B ≤ x % B ∧ x % B < (c + k) % B + n) := by
          intro h
          exact hin (hiff.2 ⟨hf, h.1, h.2⟩)
        have hin3 : ¬ (i = i ∧ c + k ≤ x ∧ x < c + k + n) := fun h => hin h.2
        rw [if_neg hin2, if_neg hin3]
    · have hcond : ¬ (i = inum ∧ c + k ≤ x ∧ x < c + k + n) := by
        rintro ⟨hi, h1, h2⟩
        have ho := offset_in_stride hB hn h1 h2
        exact hblk ⟨hi, ho.1⟩
      have hval : (allocated st inum ((c + k) / B) d rest).dbn i (x / B) = st.dbn i (x / B) := by
        rw [allocated_dbn, if_neg hblk]
      rw [hval, if_neg hcond, upd_ne _ _ (hold i (x / B))]

/-! ## The write loop -/

theorem wrote_refl {B : Int} (inum c : Int) (src : Mem) (lo : Int) {st : Bfs} (hwf : WF st) :
    Wrote B inum c src lo lo st st := by
  refine ⟨hwf, rfl, rfl, rfl, rfl, fun _ _ _ => rfl, fun _ _ h => absurd rfl h,
    fun _ _ h => absurd rfl h, ?_⟩
  intro i x _
  rw [if_neg]
  omega

theorem wrote_trans {B inum c : Int} {src : Mem} {lo mid hi : Int} {st st1 st2 : Bfs}
    (h1 : Wrote B inum c src lo mid st st1) (h2 : Wrote B inum c src mid hi st1 st2)
    (hlm : lo ≤ mid) (hmh : mid ≤ hi) : Wrote B inum c src lo hi st st2 := by
  refine ⟨h2.wf, h2.fdToInum_eq.trans h1.fdToInum_eq, h2.findOFTE_eq.trans h1.findOFTE_eq,
    h2.curs_eq.trans h1.curs_eq, h2.size_eq.trans h1.size_eq, ?_, ?_, ?_, ?_⟩
  · intro i f hne
    have e1 := h1.dbn_mapped i f hne
    rw [h2.dbn_mapped i f (by rw [e1]; exact hne), e1]
  · intro i f hne
    by_cases hch : st1.dbn i f = st.dbn i f
    · obtain ⟨hi', x, hx1, hx2, hx3⟩ := h2.dbn_other i f (by rw [hch]; exact hne)
      exact ⟨hi', x, by omega, hx2, hx3⟩
    · obtain ⟨hi', x, hx1, hx2, hx3⟩ := h1.dbn_other i f hch
      exact ⟨hi', x, hx1, by omega, hx3⟩
  · intro d j hne
    by_cases hch : st1.disk d j = st.disk d j
    · obtain ⟨hd, x, hx1, hx2, hx3⟩ := h2.disk_other d j (by rw [hch]; exact hne)
      exact ⟨hd, x, by omega, hx2, hx3⟩
    · obtain ⟨hd, x, hx1, hx2, hx3⟩ := h1.disk_other d j hch
      refine ⟨hd, x, hx1, by omega, ?_⟩
      rw [h2.dbn_mapped inum (x / B) (by rw [hx3]; exact hd), hx3]
  · intro i x hx
    rw [h2.byte i x hx, h1.byte i x hx]
    by_cases hi' : i = inum
    · by_cases ha : mid ≤ x ∧ x < hi
      · rw [if_pos ⟨hi', ha⟩, if_pos ⟨hi', by omega, ha.2⟩]
      · rw [if_neg (fun h => ha h.2)]
        by_cases hb : lo ≤ x ∧ x < mid
        · rw [if_pos ⟨hi', hb⟩, if_pos ⟨hi', hb.1, by omega⟩]
        · rw [if_neg (fun h => hb h.2), if_neg]
          rintro ⟨_, h3, h4⟩
          omega
    · rw [if_neg (fun h => hi' h.1), if_neg (fun h => hi' h.1), if_neg (fun h => hi' h.1)]

/-- The write loop either ends with `bytesWritten = numb`, all remaining bytes
written and nothing else changed, or it stops at `FATAL(EDISKFULL)` on an
unmapped block with the free list empty, the strides before it written. -/
theorem writeLoop_spec {B : Int} (inum : Int) {c N : Int} (src : Mem)
    (hB : 0 < B) (hB2 : B ≤ 2147483647) (hc : 0 ≤ c) (hN : c + N ≤ 2147483647) :
    ∀ (fuel : Nat) (st : Bfs) (k : Int), WF st → 0 ≤ k → k ≤ N → N - k ≤ fuel →
      (∃ st', writeLoop B inum c N src fuel st k = .done st' N ∧
        Wrote B inum c src (c + k) (c + N) st st') ∨
      (∃ st' m, writeLoop B inum c N src fuel st k = .full st' ∧ k ≤ m ∧ m < N ∧
        st'.free = [] ∧ st'.dbn inum ((c + m) / B) = 0 ∧
        Wrote B inum c src (c + k) (c + m) st st') := by
  intro fuel
  induction fuel with
  | zero =>
    intro st k hwf hk hkN hf
    have : k = N := by omega
    subst this
    left
    refine ⟨st, ?_, wrote_refl inum c src _ hwf⟩
    unfold writeLoop; simp
  | succ fuel ih =>
    intro st k hwf hk hkN hf
    by_cases hlt : k < N
    · have s1 := stride_pos (c := c) hB hlt
      have s2 := @stride_le_left B c N k
      have s3 := @stride_le_block B c N k
      have hstep : ∀ st1, Wrote B inum c src (c + k) (c + k + stride B c N k) st st1 →
          (∃ st', writeLoop B inum c N src fuel st1 (k + stride B c N k) = .done st' N ∧
            Wrote B inum c src (c + k) (c + N) st st') ∨
          (∃ st' m, writeLoop B inum c N src fuel st1 (k + stride B c N k) = .full st' ∧
            k ≤ m ∧ m < N ∧ st'.free = [] ∧ st'.dbn inum ((c + m) / B) = 0 ∧
            Wrote B inum c src (c + k) (c + m) st st') := by
        intro st1 hw
        rcases ih st1 (k + stride B c N k) hw.wf (by omega) (by omega)
          (by push_cast at hf; omega) with ⟨st', e, w⟩ | ⟨st', m, e, hm1, hm2, hfr, hdb, w⟩
        · left
          refine ⟨st', e, wrote_trans hw ?_ (by omega) (by omega)⟩
          rw [show c + k + stride B c N k = c + (k + stride B c N k) by ring]
          exact w
        · right
          refine ⟨st', m, e, by omega, hm2, hfr, hdb, wrote_trans hw ?_ (by omega) (by omega)⟩
          rw [show c + k + stride B c N k = c + (k + stride B c N k) by ring]
          exact w
      rw [writeLoop]
      simp only [hlt, if_true]
      by_cases hd : st.dbn inum ((c + k) / B) = 0
      · cases hfree : st.free with
        | nil =>
          right
          refine ⟨st, k, ?_, le_refl _, hlt, hfree, hd, wrote_refl inum c src _ hwf⟩
          rw [writeBody_full st inum src hB hc hk hN hlt hd hfree]
        | cons d rest =>
          have hd0 : d ≠ 0 := by
            intro h
            apply hwf.free_nz
            rw [hfree, h]
            exact List.mem_cons_self _ _
          rw [writeBody_alloc st inum src hB hB2 hc hk hlt hN hd hfree hd0]
          exact hstep _ (wrote_alloc hB st hwf inum c k _ src s1 s3 hd hfree)
      · rw [writeBody_mapped st inum src hB hB2 hc hk hlt hN hd]
        exact hstep _ (wrote_mapped hB st hwf inum c k _ src s1 s3 hd)
    · have : k = N := by omega
      subst this
      left
      refine ⟨st, ?_, wrote_refl inum c src _ hwf⟩
      unfold writeLoop; simp

/-! ## `fsWrite` as a whole -/

/-- Outside the special-cased branch, `fsWrite` of at least one byte either
returns 0 with the bytes written, the cursor advanced and the size extended,
or aborts with `EDISKFULL` on an unmapped block with the free list empty. -/
theorem fsWrite_loop {B : Int} (st : Bfs) (fd : Int) {N : Int} (src : Mem)
    (hwf : WF st) (hB : 0 < B) (hB2 : B ≤ 2147483647)
    (hc : 0 ≤ bfsTell st fd) (hN1 : 1 ≤ N) (hN : bfsTell st fd + N ≤ 2147483647)
    (hsp : ¬ (bfsTell st fd = 49 * B ∧ N = 700)) :
    (∃ st', Wrote B (st.fdToInum fd) (bfsTell st fd) src (bfsTell st fd) (bfsTell st fd + N) st st' ∧
      fsWrite B st fd N (some src) =
        ⟨.ret 0,
          { st' with
            curs := upd st.curs (st.findOFTE (st.fdToInum fd)) (bfsTell st fd + N)
            size := upd st.size (st.fdToInum fd)
              (max (st.size (st.fdToInum fd)) (bfsTell st fd + N)) },
          some src⟩) ∨
    (∃ st' m, fsWrite B st fd N (some src) = ⟨.fatal .EDISKFULL, st', some src⟩ ∧
      0 ≤ m ∧ m < N ∧ st'.free = [] ∧ st'.dbn (st.fdToInum fd) ((bfsTell st fd + m) / B) = 0 ∧
      Wrote B (st.fdToInum fd) (bfsTell st fd) src (bfsTell st fd) (bfsTell st fd + m) st st') := by
  have hnot1 : ¬ N < 0 := by omega
  have hnot2 : ¬ N = 0 := by omega
  have hfuel : N - 0 ≤ (N.toNat : Int) := by rw [Int.toNat_of_nonneg (by omega)]; omega
  have hsp2 : ¬ (st.curs (st.findOFTE (st.fdToInum fd)) = 49 * B ∧ N = 700) := hsp
  have hcN : wrap (st.curs (st.findOFTE (st.fdToInum fd)) + N)
      = st.curs (st.findOFTE (st.fdToInum fd)) + N :=
    wrap_eq_of_bounds (by unfold bfsTell bfsFindOFTE bfsFdToInum at hc; omega) hN
  rcases writeLoop_spec (st.fdToInum fd) src hB hB2 hc hN N.toNat st 0 hwf (le_refl _)
    (by omega) hfuel with ⟨st', e, w⟩ | ⟨st', m, e, hm1, hm2, hfr, hdb, w⟩
  · left
    rw [add_zero] at w
    refine ⟨st', w, ?_⟩
    unfold fsWrite
    simp only [if_neg hnot1, if_neg hnot2, bfsFdToInum, bfsFindOFTE, if_neg hsp2]
    unfold bfsTell bfsFindOFTE bfsFdToInum at e
    rw [e]
    simp only [bfsGetSize, bfsSetSize, w.curs_eq, w.size_eq, hcN, bfsTell, bfsFindOFTE,
      bfsFdToInum]
    by_cases hgt : st.curs (st.findOFTE (st.fdToInum fd)) + N > st.size (st.fdToInum fd)
    · rw [if_pos hgt, max_eq_right (le_of_lt hgt)]
    · rw [if_neg hgt, max_eq_left (by omega)]
      congr 2
      funext i
      by_cases hi : i = st.fdToInum fd
      · subst hi; rw [upd_same]
      · rw [upd_ne _ _ hi]
  · right
    rw [add_zero] at w
    refine ⟨st', m, ?_, hm1, hm2, hfr, hdb, w⟩
    unfold fsWrite
    simp only [if_neg hnot1, if_neg hnot2, bfsFdToInum, bfsFindOFTE, if_neg hsp2]
    unfold bfsTell bfsFindOFTE bfsFdToInum at e
    rw [e]

/-- The special-cased branch of `fsWrite`: nothing reaches the disk, the
cursor and the size move as for a real write, and the caller's buffer is
overwritten with the byte 99. -/
theorem fsWrite_special {B : Int} (st : Bfs) (fd : Int) (src : Mem)
    (hc : bfsTell st fd = 49 * B) (hc0 : 0 ≤ bfsTell st fd)
    (hN : bfsTell st fd + 700 ≤ 2147483647) :
    fsWrite B st fd 700 (some src) =
      ⟨.ret 0,
        { st with
          curs := upd st.curs (st.findOFTE (st.fdToInum fd)) (bfsTell st fd + 700)
          size := upd st.size (st.fdToInum fd)
            (max (st.size (st.fdToInum fd)) (bfsTell st fd + 700)) },
        some (memset src 0 99 700)⟩ := by
  have hcur : st.curs (st.findOFTE (st.fdToInum fd)) = 49 * B := hc
  have hcN : wrap (49 * B + 700) = 49 * B + 700 :=
    wrap_eq_of_bounds (by rw [hc] at hc0; omega) (by rw [hc] at hN; exact hN)
  have hupd : upd st.size (st.fdToInum fd) (st.size (st.fdToInum fd)) = st.size := by
    funext i
    by_cases hi : i = st.fdToInum fd
    · subst hi; rw [upd_same]
    · rw [upd_ne _ _ hi]
  simp only [fsWrite, bfsFdToInum, bfsFindOFTE, bfsGetSize, bfsSetSize, bfsTell, hcur, hcN,
    and_self, if_true]
  by_cases hgt : 49 * B + 700 > st.size (st.fdToInum fd)
  · simp [hgt, max_eq_right (le_of_lt hgt)]
  · simp [hgt, max_eq_left (not_lt.1 hgt), hupd]

/-! ## What the write loop never touches -/

theorem frame_refl (st : Bfs) : Frame st st := ⟨rfl, rfl, rfl, rfl⟩

theorem frame_trans {st st1 st2 : Bfs} (h1 : Frame st st1) (h2 : Frame st1 st2) :
    Frame st st2 :=
  ⟨h2.fdToInum_eq.trans h1.fdToInum_eq, h2.findOFTE_eq.trans h1.findOFTE_eq,
    h2.curs_eq.trans h1.curs_eq, h2.size_eq.trans h1.size_eq⟩

theorem frame_bfsAllocBlock (st : Bfs) (inum fbn : Int) :
    Frame st (bfsAllocBlock st inum fbn).2 := by
  unfold bfsAllocBlock
  cases st.free <;> exact ⟨rfl, rfl, rfl, rfl⟩

/-- One stride of the write loop, in any state: it aborts or it advances by
the stride, and it leaves the session table and the sizes alone. -/
theorem writeBody_frame {B : Int} (st : Bfs) (inum : Int) {c N k : Int} (src : Mem)
    (hB : 0 < B) (hB2 : B ≤ 2147483647) (hc : 0 ≤ c) (hk : 0 ≤ k) (hkN : k < N)
    (hN : c + N ≤ 2147483647) :
    (∃ st1, writeBody B inum c N src st k = .error st1 ∧ Frame st st1) ∨
    (∃ st1, writeBody B inum c N src st k = .ok (st1, k + stride B c N k) ∧ Frame st st1) := by
  have hm := emod_bounds (c + k) hB
  have e1 : wrap (c + k) = c + k := wrap_eq_of_bounds (by omega) (by omega)
  have e2 : Int.tdiv (c + k) B = (c + k) / B := Int.tdiv_eq_ediv (by omega) (by omega)
  have e3 : Int.tmod (c + k) B = (c + k) % B := Int.tmod_eq_emod (by omega) (by omega)
  have e4 : wrap (N - k) = N - k := wrap_eq_of_bounds (by omega) (by omega)
  have e5 : wrap (B - (c + k) % B) = B - (c + k) % B := wrap_eq_of_bounds (by omega) (by omega)
  have s1 := stride_pos (c := c) hB hkN
  have s2 := @stride_le_left B c N k
  have e6 : wrap (k + stride B c N k) = k + stride B c N k :=
    wrap_eq_of_bounds (by omega) (by omega)
  have e7 : (if B - (c + k) % B > N - k then N - k else B - (c + k) % B) = stride B c N k := rfl
  have hal := frame_bfsAllocBlock st inum ((c + k) / B)
  unfold writeBody
  simp only [e1, e2, e3, e4, e5, e7, e6]
  by_cases hd : bfsFbnToDbn st inum ((c + k) / B) = 0
  · simp only [hd, if_true]
    by_cases hd2 : (bfsAllocBlock st inum ((c + k) / B)).1 = 0
    · left
      exact ⟨_, by simp only [hd2, if_true], hal⟩
    · right
      refine ⟨bioWrite (bfsAllocBlock st inum ((c + k) / B)).2
        (bfsAllocBlock st inum ((c + k) / B)).1
        (memcpy (memset (fun _ => 0) 0 0 B) ((c + k) % B) src k (stride B c N k)), ?_, ?_⟩
      · simp only [hd2, if_false]
      · exact ⟨hal.fdToInum_eq, hal.findOFTE_eq, hal.curs_eq, hal.size_eq⟩
  · right
    refine ⟨bioWrite st (bfsFbnToDbn st inum ((c + k) / B))
      (memcpy (if (c + k) % B > 0 ∨ stride B c N k < B
          then bioRead st (bfsFbnToDbn st inum ((c + k) / B))
          else memset (fun _ => 0) 0 0 B)
        ((c + k) % B) src k (stride B c N k)), ?_, ?_⟩
    · simp only [hd, if_false]
    · exact ⟨rfl, rfl, rfl, rfl⟩

/-- The write loop, in any state, ends within its iteration budget: with
`bytesWritten = numb`, or at `FATAL(EDISKFULL)`. -/
theorem writeLoop_frame {B : Int} (inum : Int) {c N : Int} (src : Mem)
    (hB : 0 < B) (hB2 : B ≤ 2147483647) (hc : 0 ≤ c) (hN : c + N ≤ 2147483647) :
    ∀ (fuel : Nat) (st : Bfs) (k : Int), 0 ≤ k → k ≤ N → N - k ≤ fuel →
      (∃ st', writeLoop B inum c N src fuel st k = .done st' N ∧ Frame st st') ∨
      (∃ st', writeLoop B inum c N src fuel st k = .full st' ∧ Frame st st') := by
  intro fuel
  induction fuel with
  | zero =>
    intro st k hk hkN hf
    have : k = N := by omega
    subst this
    left
    exact ⟨st, by unfold writeLoop; simp, frame_refl st⟩
  | succ fuel ih =>
    intro st k hk hkN hf
    by_cases hlt : k < N
    · have s1 := stride_pos (c := c) hB hlt
      have s2 := @stride_le_left B c N k
      rw [writeLoop]
      simp only [hlt, if_true]
      rcases writeBody_frame st inum src hB hB2 hc hk hlt hN with ⟨st1, e, f⟩ | ⟨st1, e, f⟩
      · right
        exact ⟨st1, by rw [e], f⟩
      · rw [e]
        rcases ih st1 (k + stride B c N k) (by omega) (by omega) (by push_cast at hf; omega)
          with ⟨st', e', f'⟩ | ⟨st', e', f'⟩
        · left; exact ⟨st', e', frame_trans f f'⟩
        · right; exact ⟨st', e', frame_trans f f'⟩
    · have : k = N := by omega
      subst this
      left
      exact ⟨st, by unfold writeLoop; simp, frame_refl st⟩

/-- Outside the special-cased branch, `fsWrite` of at least one byte, in any
state, returns 0 with the cursor advanced by `numb` and the size raised to the
new cursor if it was below, or aborts with `EDISKFULL`. -/
theorem fsWrite_loop_frame {B : Int} (st : Bfs) (fd : Int) {N : Int} (src : Mem)
    (hB : 0 < B) (hB2 : B ≤ 2147483647)
    (hc : 0 ≤ bfsTell st fd) (hN1 : 1 ≤ N) (hN : bfsTell st fd + N ≤ 2147483647)
    (hsp : ¬ (bfsTell st fd = 49 * B ∧ N = 700)) :
    (∃ st', Frame st st' ∧
      fsWrite B st fd N (some src) =
        ⟨.ret 0,
          { st' with
            curs := upd st.curs (st.findOFTE (st.fdToInum fd)) (bfsTell st fd + N)
            size := upd st.size (st.fdToInum fd)
              (max (st.size (st.fdToInum fd)) (bfsTell st fd + N)) },
          some src⟩) ∨
    (∃ st', Frame st st' ∧
      fsWrite B st fd N (some src) = ⟨.fatal .EDISKFULL, st', some src⟩) := by
  have hnot1 : ¬ N < 0 := by omega
  have hnot2 : ¬ N = 0 := by omega
  have hfuel : N - 0 ≤ (N.toNat : Int) := by rw [Int.toNat_of_nonneg (by omega)]; omega
  have hsp2 : ¬ (st.curs (st.findOFTE (st.fdToInum fd)) = 49 * B ∧ N = 700) := hsp
  have hcN : wrap (st.curs (st.findOFTE (st.fdToInum fd)) + N)
      = st.curs (st.findOFTE (st.fdToInum fd)) + N :=
    wrap_eq_of_bounds (by unfold bfsTell bfsFindOFTE bfsFdToInum at hc; omega) hN
  rcases writeLoop_frame (st.fdToInum fd) src hB hB2 hc hN N.toNat st 0 (le_refl _)
    (by omega) hfuel with ⟨st', e, w⟩ | ⟨st', e, w⟩
  · left
    refine ⟨st', w, ?_⟩
    unfold fsWrite
    simp only [if_neg hnot1, if_neg hnot2, bfsFdToInum, bfsFindOFTE, if_neg hsp2]
    unfold bfsTell bfsFindOFTE bfsFdToInum at e
    rw [e]
    simp only [bfsGetSize, bfsSetSize, w.curs_eq, w.size_eq, hcN, bfsTell, bfsFindOFTE,
      bfsFdToInum]
    by_cases hgt : st.curs (st.findOFTE (st.fdToInum fd)) + N > st.size (st.fdToInum fd)
    · rw [if_pos hgt, max_eq_right (le_of_lt hgt)]
    · rw [if_neg hgt, max_eq_left (by omega)]
      congr 2
      funext i
      by_cases hi : i = st.fdToInum fd
      · subst hi; rw [upd_same]
      · rw [upd_ne _ _ hi]
  · right
    refine ⟨st', w, ?_⟩
    unfold fsWrite
    simp only [if_neg hnot1, if_neg hnot2, bfsFdToInum, bfsFindOFTE, if_neg hsp2]
    unfold bfsTell bfsFindOFTE bfsFdToInum at e
    rw [e]

/-! ## `fsRead` as a whole -/

theorem fsRead_zero (B : Int) (st : Bfs) (fd : Int) (buf : Option Mem) :
    fsRead B st fd 0 buf = ⟨.ret 0, st, buf⟩ := by
  unfold fsRead
  simp

/-- The special-cased branch of `fsRead`: 700 bytes of value 99 and zeros after
them, whatever the file holds, and the cursor moved by 700. -/
theorem fsRead_special {B : Int} (st : Bfs) (fd : Int) {N : Int} (dest : Mem)
    (hc : bfsTell st fd = 49 * B) (hc0 : 0 ≤ bfsTell st fd) (hN7 : 700 ≤ N)
    (hN : bfsTell st fd + N ≤ 2147483647) :
    fsRead B st fd N (some dest) =
      ⟨.ret 700,
        { st with curs := upd st.curs (st.findOFTE (st.fdToInum fd)) (bfsTell st fd + 700) },
        some (memset (memset (memset dest 0 99 512) 512 99 188) 700 0 (N - 700))⟩ := by
  have hcur : st.curs (st.findOFTE (st.fdToInum fd)) = 49 * B := hc
  have h0 : 0 ≤ 49 * B := by rw [hc] at hc0; exact hc0
  have hN' : 49 * B + N ≤ 2147483647 := by rw [hc] at hN; exact hN
  have hcN : wrap (49 * B + 700) = 49 * B + 700 := wrap_eq_of_bounds (by omega) (by omega)
  have hN2 : wrap (N - 700) = N - 700 := wrap_eq_of_bounds (by omega) (by omega)
  have hnot1 : ¬ N < 0 := by omega
  have hnot2 : ¬ N = 0 := by omega
  have hge : N ≥ 700 := hN7
  simp only [fsRead, if_neg hnot1, if_neg hnot2, bfsFdToInum, bfsFindOFTE, bfsGetSize, bfsTell,
    hcur, hcN, hN2, hge, and_self, if_true]

/-- At or past the end of the file, outside the special-cased branch, `fsRead`
returns 0 and changes nothing. -/
theorem fsRead_eof {B : Int} (st : Bfs) (fd : Int) {N : Int} (dest : Mem)
    (hN1 : 1 ≤ N) (hsp : ¬ (bfsTell st fd = 49 * B ∧ N ≥ 700))
    (heof : bfsTell st fd ≥ fsSize st fd) :
    fsRead B st fd N (some dest) = ⟨.ret 0, st, some dest⟩ := by
  have hnot1 : ¬ N < 0 := by omega
  have hnot2 : ¬ N = 0 := by omega
  have hsp2 : ¬ (st.curs (st.findOFTE (st.fdToInum fd)) = 49 * B ∧ N ≥ 700) := hsp
  have heof2 : st.curs (st.findOFTE (st.fdToInum fd)) ≥ st.size (st.fdToInum fd) := heof
  simp only [fsRead, if_neg hnot1, if_neg hnot2, bfsFdToInum, bfsFindOFTE, bfsGetSize,
    if_neg hsp2, if_pos heof2]

/-- Before the end of the file, outside the special-cased branch, `fsRead`
returns the request clamped to what is left, delivers the file's bytes from
the cursor on, and advances the cursor by what it returns. -/
theorem fsRead_loop {B : Int} (st : Bfs) (fd : Int) {N : Int} (dest : Mem)
    (hB : 0 < B) (hB2 : B ≤ 2147483647)
    (hc : 0 ≤ bfsTell st fd) (hN1 : 1 ≤ N) (hN : bfsTell st fd + N ≤ 2147483647)
    (hsp : ¬ (bfsTell st fd = 49 * B ∧ N ≥ 700))
    (hlt : bfsTell st fd < fsSize st fd) :
    ∃ dest', fsRead B st fd N (some dest) =
        ⟨.ret (min N (fsSize st fd - bfsTell st fd)),
          { st with
            curs := upd st.curs (st.findOFTE (st.fdToInum fd))
              (bfsTell st fd + min N (fsSize st fd - bfsTell st fd)) },
          some dest'⟩ ∧
      ∀ j, dest' j = if 0 ≤ j ∧ j < min N (fsSize st fd - bfsTell st fd)
        then fileByte B st (st.fdToInum fd) (bfsTell st fd + j) else dest j := by
  have hnot1 : ¬ N < 0 := by omega
  have hnot2 : ¬ N = 0 := by omega
  have hsp2 : ¬ (st.curs (st.findOFTE (st.fdToInum fd)) = 49 * B ∧ N ≥ 700) := hsp
  have hlt2 : ¬ st.curs (st.findOFTE (st.fdToInum fd)) ≥ st.size (st.fdToInum fd) :=
    not_le.2 hlt
  have hc' : 0 ≤ st.curs (st.findOFTE (st.fdToInum fd)) := hc
  have hN' : st.curs (st.findOFTE (st.fdToInum fd)) + N ≤ 2147483647 := hN
  have hlt' : st.curs (st.findOFTE (st.fdToInum fd)) < st.size (st.fdToInum fd) := hlt
  have hcN : wrap (st.curs (st.findOFTE (st.fdToInum fd)) + N)
      = st.curs (st.findOFTE (st.fdToInum fd)) + N := wrap_eq_of_bounds (by omega) hN
  -- the clamped request
  have hclamp : (if wrap (st.curs (st.findOFTE (st.fdToInum fd)) + N) > st.size (st.fdToInum fd)
      then wrap (st.size (st.fdToInum fd) - st.curs (st.findOFTE (st.fdToInum fd))) else N)
      = min N (st.size (st.fdToInum fd) - st.curs (st.findOFTE (st.fdToInum fd))) := by
    rw [hcN]
    by_cases hgt : st.curs (st.findOFTE (st.fdToInum fd)) + N > st.size (st.fdToInum fd)
    · rw [if_pos hgt, wrap_eq_of_bounds (by omega) (by omega), min_eq_right (by omega)]
    · rw [if_neg hgt, min_eq_left (by omega)]
  have hn1 : 1 ≤ min N (st.size (st.fdToInum fd) - st.curs (st.findOFTE (st.fdToInum fd))) := by
    rw [le_min_iff]; constructor <;> omega
  have hnN : min N (st.size (st.fdToInum fd) - st.curs (st.findOFTE (st.fdToInum fd))) ≤ N :=
    min_le_left _ _
  obtain ⟨dest', e, hd⟩ := readLoop_spec st (st.fdToInum fd) hB hB2 hc' (by omega : st.curs (st.findOFTE (st.fdToInum fd)) + min N (st.size (st.fdToInum fd) - st.curs (st.findOFTE (st.fdToInum fd))) ≤ 2147483647)
    (min N (st.size (st.fdToInum fd) - st.curs (st.findOFTE (st.fdToInum fd)))).toNat 0 dest
    (le_refl _) (by omega) (by rw [Int.toNat_of_nonneg (by omega)]; omega)
  refine ⟨dest', ?_, hd⟩
  simp only [fsRead, if_neg hnot1, if_neg hnot2, bfsFdToInum, bfsFindOFTE, bfsGetSize,
    if_neg hsp2, if_neg hlt2, hclamp, e, bfsTell, fsSize]
  rw [wrap_eq_of_bounds (by omega) (by omega)]

/-! ## `fsSeek` and `fsTell` -/

theorem fsSeek_neg (st : Bfs) (fd offset whence : Int) (h : offset < 0) :
    fsSeek st fd offset whence = (.fatal .EBADCURS, st) := by
  unfold fsSeek
  rw [if_pos h]

theorem fsSeek_set (st : Bfs) (fd offset : Int) (h : 0 ≤ offset) :
    fsSeek st fd offset SEEK_SET =
      (.ret 0, { st with curs := upd st.curs (st.findOFTE (st.fdToInum fd)) offset }) := by
  unfold fsSeek
  rw [if_neg (by omega)]
  rfl

theorem fsSeek_cur (st : Bfs) (fd offset : Int) (h : 0 ≤ offset) :
    fsSeek st fd offset SEEK_CUR =
      (.ret 0, { st with
        curs := upd st.curs (st.findOFTE (st.fdToInum fd)) (wrap (bfsTell st fd + offset)) }) := by
  unfold fsSeek
  rw [if_neg (by omega)]
  rfl

theorem fsSeek_end (st : Bfs) (fd offset : Int) (h : 0 ≤ offset) :
    fsSeek st fd offset SEEK_END =
      (.ret 0, { st with
        curs := upd st.curs (st.findOFTE (st.fdToInum fd)) (wrap (fsSize st fd + offset)) }) := by
  unfold fsSeek
  rw [if_neg (by omega)]
  rfl

theorem fsSeek_other (st : Bfs) (fd offset whence : Int) (h : 0 ≤ offset)
    (h0 : whence ≠ SEEK_SET) (h1 : whence ≠ SEEK_CUR) (h2 : whence ≠ SEEK_END) :
    fsSeek st fd offset whence = (.fatal .EBADWHENCE, st) := by
  unfold fsSeek
  rw [if_neg (by omega)]
  simp only [if_neg h0, if_neg h1, if_neg h2]

/-- C7. Absolute seek then tell: for every state and every `k ≥ 0`,
`fsSeek(fd, k, SEEK_SET)` returns 0 and a following `fsTell(fd)` returns `k`;
for every `k < 0`, `fsSeek` aborts with `EBADCURS` and the state, the cursor
included, is the one before the call. -/
theorem fsSeek_set_then_fsTell (st : Bfs) (fd k : Int) :
    (0 ≤ k → (fsSeek st fd k SEEK_SET).1 = .ret 0 ∧
      fsTell (fsSeek st fd k SEEK_SET).2 fd = k) ∧
    (k < 0 → (fsSeek st fd k SEEK_SET).1 = .fatal .EBADCURS ∧
      (fsSeek st fd k SEEK_SET).2 = st ∧
      fsTell (fsSeek st fd k SEEK_SET).2 fd = fsTell st fd) := by
  constructor
  · intro h
    rw [fsSeek_set st fd k h]
    refine ⟨rfl, ?_⟩
    show upd st.curs (st.findOFTE (st.fdToInum fd)) k (st.findOFTE (st.fdToInum fd)) = k
    rw [upd_same]
  · intro h
    rw [fsSeek_neg st fd k SEEK_SET h]
    exact ⟨rfl, rfl, rfl⟩

theorem fsSeek_set_then_fsTell_witness :
    ((fsSeek fresh 3 5000 SEEK_SET).1 = .ret 0 ∧
      fsTell (fsSeek fresh 3 5000 SEEK_SET).2 3 = 5000) ∧
    ((fsSeek fresh 3 (-1) SEEK_SET).1 = .fatal .EBADCURS ∧
      (fsSeek fresh 3 (-1) SEEK_SET).2 = fresh ∧
      fsTell (fsSeek fresh 3 (-1) SEEK_SET).2 3 = fsTell fresh 3) :=
  ⟨(fsSeek_set_then_fsTell fresh 3 5000).1 (by decide),
    (fsSeek_set_then_fsTell fresh 3 (-1)).2 (by decide)⟩

/-- C9 (amended). Relative and from-end seek: for every state with cursor `c` and file
size `s` and every `offset ≥ 0`, when `c + offset` fits in an `i32`,
`fsSeek(fd, offset, SEEK_CUR)` returns 0 and sets the cursor to `c + offset`,
which is not below `c`; when `s + offset` fits in an `i32`,
`fsSeek(fd, offset, SEEK_END)` returns 0 and sets the cursor to `s + offset`.
Both leave every size, the block map, the block contents and the free list as
they were. -/
theorem fsSeek_cur_end (st : Bfs) (fd offset : Int) (h0 : 0 ≤ offset) :
    (I32 (fsTell st fd + offset) →
      (fsSeek st fd offset SEEK_CUR).1 = .ret 0 ∧
      fsTell (fsSeek st fd offset SEEK_CUR).2 fd = fsTell st fd + offset ∧
      fsTell st fd ≤ fsTell (fsSeek st fd offset SEEK_CUR).2 fd) ∧
    (I32 (fsSize st fd + offset) →
      (fsSeek st fd offset SEEK_END).1 = .ret 0 ∧
      fsTell (fsSeek st fd offset SEEK_END).2 fd = fsSize st fd + offset) ∧
    (∀ whence, whence = SEEK_CUR ∨ whence = SEEK_END →
      (fsSeek st fd offset whence).2.size = st.size ∧
      fsSize (fsSeek st fd offset whence).2 fd = fsSize st fd ∧
      (fsSeek st fd offset whence).2.dbn = st.dbn ∧
      (fsSeek st fd offset whence).2.disk = st.disk ∧
      (fsSeek st fd offset whence).2.free = st.free) := by
  refine ⟨?_, ?_, ?_⟩
  · intro hr
    have hr2 : I32 (bfsTell st fd + offset) := hr
    rw [fsSeek_cur st fd offset h0, wrap_eq hr2]
    refine ⟨rfl, ?_, ?_⟩
    · show upd st.curs (st.findOFTE (st.fdToInum fd)) _ (st.findOFTE (st.fdToInum fd)) = _
      rw [upd_same]
      rfl
    · show _ ≤ upd st.curs (st.findOFTE (st.fdToInum fd)) _ (st.findOFTE (st.fdToInum fd))
      rw [upd_same]
      show bfsTell st fd ≤ bfsTell st fd + offset
      omega
  · intro hr
    rw [fsSeek_end st fd offset h0, wrap_eq hr]
    refine ⟨rfl, ?_⟩
    show upd st.curs (st.findOFTE (st.fdToInum fd)) _ (st.findOFTE (st.fdToInum fd)) = _
    rw [upd_same]
  · rintro whence (h | h)
    · rw [h, fsSeek_cur st fd offset h0]
      exact ⟨rfl, rfl, rfl, rfl, rfl⟩
    · rw [h, fsSeek_end st fd offset h0]
      exact ⟨rfl, rfl, rfl, rfl, rfl⟩

theorem fsSeek_cur_end_witness :
    (0 : Int) ≤ 7 ∧ I32 (fsTell atFive 3 + 7) ∧ I32 (fsSize atFive 3 + 7) ∧
    fsTell (fsSeek atFive 3 7 SEEK_CUR).2 3 = fsTell atFive 3 + 7 ∧
    fsTell (fsSeek atFive 3 7 SEEK_END).2 3 = fsSize atFive 3 + 7 ∧
    fsSize (fsSeek atFive 3 7 SEEK_END).2 3 = fsSize atFive 3 :=
  ⟨by decide, by decide, by decide,
    ((fsSeek_cur_end atFive 3 7 (by decide)).1 (by decide)).2.1,
    ((fsSeek_cur_end atFive 3 7 (by decide)).2.1 (by decide)).2,
    ((fsSeek_cur_end atFive 3 7 (by decide)).2.2 SEEK_END (Or.inr rfl)).2.1⟩

/-- C10. Seek failure is exact and atomic: `fsSeek` aborts with `EBADCURS`
exactly when `offset < 0`, whatever the base; it aborts with `EBADWHENCE`
exactly when `offset ≥ 0` and the base is none of `SEEK_SET`, `SEEK_CUR`,
`SEEK_END`; in every other case it returns 0; and whenever it aborts the state
left behind, the session cursor included, is the state before the call. -/
theorem fsSeek_abort_iff (st : Bfs) (fd offset whence : Int) :
    ((fsSeek st fd offset whence).1 = .fatal .EBADCURS ↔ offset < 0) ∧
    ((fsSeek st fd offset whence).1 = .fatal .EBADWHENCE ↔
      (0 ≤ offset ∧ whence ≠ SEEK_SET ∧ whence ≠ SEEK_CUR ∧ whence ≠ SEEK_END)) ∧
    ((∃ e, (fsSeek st fd offset whence).1 = .fatal e) ↔
      (offset < 0 ∨
        (0 ≤ offset ∧ whence ≠ SEEK_SET ∧ whence ≠ SEEK_CUR ∧ whence ≠ SEEK_END))) ∧
    ((¬ ∃ e, (fsSeek st fd offset whence).1 = .fatal e) →
      (fsSeek st fd offset whence).1 = .ret 0) ∧
    (∀ e, (fsSeek st fd offset whence).1 = .fatal e →
      (fsSeek st fd offset whence).2 = st ∧
      fsTell (fsSeek st fd offset whence).2 fd = fsTell st fd) := by
  by_cases hneg : offset < 0
  · rw [fsSeek_neg st fd offset whence hneg]
    have h0 : ¬ 0 ≤ offset := by omega
    simp [hneg, h0]
  · have h0 : 0 ≤ offset := by omega
    by_cases hs : whence = SEEK_SET
    · rw [hs, fsSeek_set st fd offset h0]
      simp [hneg]
    · by_cases hcu : whence = SEEK_CUR
      · rw [hcu, fsSeek_cur st fd offset h0]
        simp [hneg]
      · by_cases he : whence = SEEK_END
        · rw [he, fsSeek_end st fd offset h0]
          simp [hneg]
        · rw [fsSeek_other st fd offset whence h0 hs hcu he]
          simp [hneg, h0, hs, hcu, he]

theorem fsSeek_abort_iff_witness :
    (fsSeek atFive 3 (-4) SEEK_CUR).1 = .fatal .EBADCURS ∧
    (fsSeek atFive 3 4 9).1 = .fatal .EBADWHENCE ∧
    (fsSeek atFive 3 4 9).2 = atFive ∧
    (fsSeek atFive 3 4 SEEK_END).1 = .ret 0 :=
  ⟨(fsSeek_abort_iff atFive 3 (-4) SEEK_CUR).1.2 (by decide),
    (fsSeek_abort_iff atFive 3 4 9).2.1.2 (by decide),
    ((fsSeek_abort_iff atFive 3 4 9).2.2.2.2 .EBADWHENCE
      ((fsSeek_abort_iff atFive 3 4 9).2.1.2 (by decide))).1,
    (fsSeek_abort_iff atFive 3 4 SEEK_END).2.2.2.1 (by
      rintro ⟨e, h⟩
      have := ((fsSeek_abort_iff atFive 3 4 SEEK_END).2.2.1.1 ⟨e, h⟩)
      revert this
      decide)⟩

/-! ## Size and cursor after a transfer -/

theorem fsWrite_zero (B : Int) (st : Bfs) (fd : Int) (buf : Option Mem) :
    fsWrite B st fd 0 buf = ⟨.ret 0, st, buf⟩ := by
  unfold fsWrite
  simp

theorem fsWrite_neg (B : Int) (st : Bfs) (fd : Int) {N : Int} (buf : Option Mem) (h : N < 0) :
    fsWrite B st fd N buf = ⟨.fatal .ENEGNUMB, st, buf⟩ := by
  unfold fsWrite
  rw [if_pos h]

theorem fsWrite_null (B : Int) (st : Bfs) (fd : Int) {N : Int} (h : 1 ≤ N) :
    fsWrite B st fd N none = ⟨.fatal .ENULLPTR, st, none⟩ := by
  unfold fsWrite
  rw [if_neg (by omega), if_neg (by omega)]

theorem fsRead_neg (B : Int) (st : Bfs) (fd : Int) {N : Int} (buf : Option Mem) (h : N < 0) :
    fsRead B st fd N buf = ⟨.fatal .ENEGNUMB, st, buf⟩ := by
  unfold fsRead
  rw [if_pos h]

theorem fsRead_null (B : Int) (st : Bfs) (fd : Int) {N : Int} (h : 1 ≤ N) :
    fsRead B st fd N none = ⟨.fatal .ENULLPTR, st, none⟩ := by
  unfold fsRead
  rw [if_neg (by omega), if_neg (by omega)]

/-- C2, the claim as stated fails: with the cursor moved past the end of an
empty file (cursor 5, size 0), `fsWrite` of 0 bytes returns 0 and leaves the
size at 0, not at `max(0, 5 + 0) = 5`. -/
theorem fsWrite_zero_count_keeps_size :
    (fsWrite 512 atFive 3 0 (some helloWorld)).out = .ret 0 ∧
    fsSize (fsWrite 512 atFive 3 0 (some helloWorld)).st 3 ≠
      max (fsSize atFive 3) (fsTell atFive 3 + 0) := by
  decide

/-- C2 (amended). Size after write: for every state with cursor `c ≥ 0` and
prior file size `s`, and every `N ≥ 0` with `c + N` in the range of `i32` and a
non-null buffer, after an `fsWrite(fd, N, buf)` that returns, `fsSize(fd)` is
`max(s, c + N)` when `N ≥ 1` and is `s` when `N = 0`. -/
theorem fsWrite_size {B : Int} (st : Bfs) (fd N : Int) (src : Mem)
    (hB : 0 < B) (hB2 : B ≤ 2147483647)
    (hc : 0 ≤ fsTell st fd) (hN0 : 0 ≤ N) (hN : fsTell st fd + N ≤ 2147483647)
    (hok : (fsWrite B st fd N (some src)).out = .ret 0) :
    fsSize (fsWrite B st fd N (some src)).st fd =
      if N = 0 then fsSize st fd else max (fsSize st fd) (fsTell st fd + N) := by
  by_cases hz : N = 0
  · subst hz
    rw [fsWrite_zero, if_pos rfl]
  · rw [if_neg hz]
    have hN1 : 1 ≤ N := by omega
    by_cases hsp : bfsTell st fd = 49 * B ∧ N = 700
    · obtain ⟨h1, h2⟩ := hsp
      subst h2
      rw [fsWrite_special st fd src h1 hc hN]
      show upd st.size (st.fdToInum fd) _ (st.fdToInum fd) = _
      rw [upd_same]
      rfl
    · rcases fsWrite_loop_frame st fd src hB hB2 hc hN1 hN hsp with ⟨st', f, e⟩ | ⟨st', f, e⟩
      · rw [e]
        show upd st.size (st.fdToInum fd) _ (st'.fdToInum fd) = _
        rw [f.fdToInum_eq, upd_same]
        rfl
      · rw [e] at hok
        cases hok

theorem fsWrite_size_witness :
    (fsWrite 512 atFive 3 10 (some helloWorld)).out = .ret 0 ∧
    fsSize (fsWrite 512 atFive 3 10 (some helloWorld)).st 3 =
      (if (10 : Int) = 0 then fsSize atFive 3 else max (fsSize atFive 3) (fsTell atFive 3 + 10)) :=
  ⟨by decide,
    fsWrite_size atFive 3 10 helloWorld (by decide) (by decide) (by decide) (by decide)
      (by decide) (by decide)⟩

/-- C8 (amended). The cursor advances by exactly the number of bytes transferred: for
every state with cursor `c ≥ 0`, every count `N` with `c + N` in the range of
`i32` and every buffer, `fsRead` either aborts or returns some `n` with the
cursor afterwards equal to `c + n`, and `fsWrite` either aborts or returns 0
with the cursor afterwards equal to `c + N`. -/
theorem cursor_advances_by_transfer {B : Int} (st : Bfs) (fd N : Int) (buf : Option Mem)
    (hB : 0 < B) (hB2 : B ≤ 2147483647)
    (hc : 0 ≤ fsTell st fd) (hN : fsTell st fd + N ≤ 2147483647) :
    ((∃ e, (fsRead B st fd N buf).out = .fatal e) ∨
      ∃ n, (fsRead B st fd N buf).out = .ret n ∧
        fsTell (fsRead B st fd N buf).st fd = fsTell st fd + n) ∧
    ((∃ e, (fsWrite B st fd N buf).out = .fatal e) ∨
      ((fsWrite B st fd N buf).out = .ret 0 ∧
        fsTell (fsWrite B st fd N buf).st fd = fsTell st fd + N)) := by
  have hcurs : ∀ (s' : Bfs) (v : Int), s'.fdToInum = st.fdToInum → s'.findOFTE = st.findOFTE →
      s'.curs = upd st.curs (st.findOFTE (st.fdToInum fd)) v → fsTell s' fd = v := by
    intro s' v h1 h2 h3
    show s'.curs (s'.findOFTE (s'.fdToInum fd)) = v
    rw [h1, h2, h3, upd_same]
  by_cases hneg : N < 0
  · exact ⟨Or.inl ⟨_, by rw [fsRead_neg B st fd buf hneg]⟩,
      Or.inl ⟨_, by rw [fsWrite_neg B st fd buf hneg]⟩⟩
  by_cases hz : N = 0
  · subst hz
    refine ⟨Or.inr ⟨0, ?_, ?_⟩, Or.inr ⟨?_, ?_⟩⟩
    · rw [fsRead_zero]
    · rw [fsRead_zero]; simp
    · rw [fsWrite_zero]
    · rw [fsWrite_zero]; simp
  have hN1 : 1 ≤ N := by omega
  cases buf with
  | none =>
    exact ⟨Or.inl ⟨_, by rw [fsRead_null B st fd hN1]⟩,
      Or.inl ⟨_, by rw [fsWrite_null B st fd hN1]⟩⟩
  | some m =>
    constructor
    · right
      by_cases hsp : bfsTell st fd = 49 * B ∧ N ≥ 700
      · refine ⟨700, ?_, ?_⟩
        · rw [fsRead_special st fd m hsp.1 hc hsp.2 hN]
        · rw [fsRead_special st fd m hsp.1 hc hsp.2 hN]
          exact hcurs _ _ rfl rfl rfl
      · by_cases heof : bfsTell st fd ≥ fsSize st fd
        · refine ⟨0, ?_, ?_⟩
          · rw [fsRead_eof st fd m hN1 hsp heof]
          · rw [fsRead_eof st fd m hN1 hsp heof]; simp
        · obtain ⟨dest', e, _⟩ := fsRead_loop st fd m hB hB2 hc hN1 hN hsp (not_le.1 heof)
          refine ⟨min N (fsSize st fd - bfsTell st fd), ?_, ?_⟩
          · rw [e]
          · rw [e]
            exact hcurs _ _ rfl rfl rfl
    · by_cases hsp : bfsTell st fd = 49 * B ∧ N = 700
      · obtain ⟨h1, h2⟩ := hsp
        subst h2
        right
        rw [fsWrite_special st fd m h1 hc hN]
        exact ⟨rfl, hcurs _ _ rfl rfl rfl⟩
      · rcases fsWrite_loop_frame st fd m hB hB2 hc hN1 hN hsp with ⟨st', f, e⟩ | ⟨st', f, e⟩
        · right
          rw [e]
          exact ⟨rfl, hcurs _ _ f.fdToInum_eq f.findOFTE_eq rfl⟩
        · left
          exact ⟨_, by rw [e]⟩

theorem cursor_advances_by_transfer_witness :
    (0 : Int) ≤ fsTell atFive 3 ∧ fsTell atFive 3 + 10 ≤ 2147483647 ∧
    (fsWrite 4 atFive 3 10 (some helloWorld)).out = .ret 0 ∧
    fsTell (fsWrite 4 atFive 3 10 (some helloWorld)).st 3 = fsTell atFive 3 + 10 := by
  have h := cursor_advances_by_transfer (B := 4) atFive 3 10 (some helloWorld)
    (by decide) (by decide) (by decide) (by decide)
  have hok : (fsWrite 4 atFive 3 10 (some helloWorld)).out = .ret 0 := by decide
  refine ⟨by decide, by decide, hok, ?_⟩
  rcases h.2 with ⟨e, he⟩ | ⟨_, h2⟩
  · rw [hok] at he
    cases he
  · exact h2

/-! ## `fsRead` against the end of the file -/

/-- Outside the special-cased branch `fsRead` returns, and what it returns is
bounded by the request and by what is left before the end of the file. -/
theorem fsRead_bounded {B : Int} (st : Bfs) (fd N : Int) (dest : Mem)
    (hB : 0 < B) (hB2 : B ≤ 2147483647)
    (hc : 0 ≤ fsTell st fd) (hN0 : 0 ≤ N) (hN : fsTell st fd + N ≤ 2147483647)
    (hsp : ¬ (fsTell st fd = 49 * B ∧ N ≥ 700)) :
    ∃ r, (fsRead B st fd N (some dest)).out = .ret r ∧ 0 ≤ r ∧ r ≤ N ∧
      r ≤ max 0 (fsSize st fd - fsTell st fd) := by
  by_cases hz : N = 0
  · subst hz
    exact ⟨0, by rw [fsRead_zero], le_refl _, le_refl _, le_max_left _ _⟩
  have hN1 : 1 ≤ N := by omega
  by_cases heof : bfsTell st fd ≥ fsSize st fd
  · exact ⟨0, by rw [fsRead_eof st fd dest hN1 hsp heof], le_refl _, hN0, le_max_left _ _⟩
  · obtain ⟨dest', e, _⟩ := fsRead_loop st fd dest hB hB2 hc hN1 hN hsp (not_le.1 heof)
    have hlt : bfsTell st fd < fsSize st fd := not_le.1 heof
    refine ⟨min N (fsSize st fd - bfsTell st fd), by rw [e], ?_, min_le_left _ _, ?_⟩
    · rw [le_min_iff]; constructor <;> omega
    · exact le_trans (min_le_right _ _) (le_max_right _ _)

/-- C3, at the failing input: on an empty file with the cursor at
`49 * 512 = 25088`, `fsRead` of 700 bytes returns 700, although nothing is
left before the end of the file (`max(0, size - cursor) = 0`). -/
theorem fsRead_special_exceeds_eof :
    fsSize atBlock49 3 = 0 ∧ fsTell atBlock49 3 = 25088 ∧
    (fsRead 512 atBlock49 3 700 (some (fun _ => 0))).out = .ret 700 ∧
    ¬ ((700 : Int) ≤ max 0 (fsSize atBlock49 3 - fsTell atBlock49 3)) := by
  decide

/-- C4, at the failing input: on an empty file with the cursor moved past the
end to `49 * 512 = 25088` by `fsSeek`, `fsRead` of 700 bytes returns 700, not 0,
and moves the cursor to 25788. -/
theorem fsRead_special_past_eof :
    fsTell atBlock49 3 ≥ fsSize atBlock49 3 ∧
    (fsRead 512 atBlock49 3 700 (some (fun _ => 0))).out = .ret 700 ∧
    fsTell (fsRead 512 atBlock49 3 700 (some (fun _ => 0))).st 3 = 25788 ∧
    fsTell atBlock49 3 = 25088 := by
  decide

/-! ## Well-formedness is kept -/

theorem wf_of_eq {st st' : Bfs} (hwf : WF st) (h1 : st'.dbn = st.dbn) (h2 : st'.free = st.free) :
    WF st' := by
  refine ⟨?_, ?_, ?_, ?_⟩
  · rw [h2]; exact hwf.free_nodup
  · rw [h2]; exact hwf.free_nz
  · intro i f; rw [h1, h2]; exact hwf.mapped_not_free i f
  · intro i f i' f'; rw [h1]; exact hwf.inj i f i' f'

theorem wf_fresh : WF fresh := by
  refine ⟨by decide, by decide, ?_, ?_⟩
  · intro i f
    show (0 : Int) ∉ fresh.free
    decide
  · intro i f i' f' h
    exact absurd rfl h

theorem wf_fsSeek {st : Bfs} (hwf : WF st) (fd offset whence : Int) :
    WF (fsSeek st fd offset whence).2 := by
  apply wf_of_eq hwf
  · unfold fsSeek; split_ifs <;> rfl
  · unfold fsSeek; split_ifs <;> rfl

theorem wf_fsWrite {B : Int} {st : Bfs} (hwf : WF st) (fd N : Int) (src : Mem)
    (hB : 0 < B) (hB2 : B ≤ 2147483647)
    (hc : 0 ≤ fsTell st fd) (hN : fsTell st fd + N ≤ 2147483647) :
    WF (fsWrite B st fd N (some src)).st := by
  by_cases hneg : N < 0
  · rw [fsWrite_neg B st fd _ hneg]; exact hwf
  by_cases hz : N = 0
  · subst hz
    rw [fsWrite_zero]; exact hwf
  have hN1 : 1 ≤ N := by omega
  by_cases hsp : bfsTell st fd = 49 * B ∧ N = 700
  · obtain ⟨h1, h2⟩ := hsp
    subst h2
    rw [fsWrite_special st fd src h1 hc hN]
    exact wf_of_eq hwf rfl rfl
  · rcases fsWrite_loop st fd src hwf hB hB2 hc hN1 hN hsp with
      ⟨st', w, e⟩ | ⟨st', m, e, _, _, _, _, w⟩
    · rw [e]
      exact wf_of_eq w.wf rfl rfl
    · rw [e]
      exact w.wf

/-! ## Boundary blocks of a multi-block write -/

theorem fileByte_block {B : Int} (st : Bfs) (i f j : Int) (hB : 0 < B) (hf : 0 ≤ f)
    (hj0 : 0 ≤ j) (hj : j < B) (hm : st.dbn i f ≠ 0) :
    fileByte B st i (f * B + j) = st.disk (st.dbn i f) j := by
  have hx : 0 ≤ f * B + j := by
    have := mul_nonneg hf (le_of_lt hB)
    omega
  have key := (@Int.ediv_emod_unique (f * B + j) B j f hB).2 ⟨by ring, hj0, hj⟩
  rw [fileByte_eq st i hB hx, bfsRead_apply, key.1, key.2, if_neg hm]

/-- C5. Boundary blocks of a multi-block write are preserved: for every
well-formed state with cursor `c ≥ 0` and every write of `N` bytes (`c + N` in
the range of `i32`) whose range `[c, c+N)` spans at least two blocks, enters
the first at a non-zero offset, leaves the last before its end, and whose two
boundary blocks are mapped, after an `fsWrite` that returns both boundary
blocks keep their device block, every byte of theirs outside `[c, c+N)` has
the value it had before and every byte inside has the value of the
corresponding source byte; and every position of `[c, c+N)`, in whichever
block, holds the corresponding source byte. -/
theorem fsWrite_keeps_boundary_blocks {B : Int} (st : Bfs) (fd N : Int) (src : Mem)
    (hwf : WF st) (hB : 0 < B) (hB2 : B ≤ 2147483647)
    (hc : 0 ≤ fsTell st fd) (hN : fsTell st fd + N ≤ 2147483647)
    (hspan : fsTell st fd / B < (fsTell st fd + N - 1) / B)
    (hfirst : fsTell st fd % B ≠ 0)
    (_hlast : (fsTell st fd + N) % B ≠ 0)
    (hmap1 : st.dbn (st.fdToInum fd) (fsTell st fd / B) ≠ 0)
    (hmap2 : st.dbn (st.fdToInum fd) ((fsTell st fd + N - 1) / B) ≠ 0)
    (hok : (fsWrite B st fd N (some src)).out = .ret 0) :
    (∀ f, f = fsTell st fd / B ∨ f = (fsTell st fd + N - 1) / B →
      (fsWrite B st fd N (some src)).st.dbn (st.fdToInum fd) f = st.dbn (st.fdToInum fd) f ∧
      ∀ j, 0 ≤ j → j < B →
        (fsWrite B st fd N (some src)).st.disk (st.dbn (st.fdToInum fd) f) j =
          if fsTell st fd ≤ f * B + j ∧ f * B + j < fsTell st fd + N
          then src (f * B + j - fsTell st fd)
          else st.disk (st.dbn (st.fdToInum fd) f) j) ∧
    (∀ x, fsTell st fd ≤ x → x < fsTell st fd + N →
      fileByte B (fsWrite B st fd N (some src)).st (st.fdToInum fd) x =
        src (x - fsTell st fd)) := by
  have hN1 : 1 ≤ N := by
    by_contra hcon
    have := Int.ediv_le_ediv hB (show fsTell st fd + N - 1 ≤ fsTell st fd by omega)
    omega
  have hsp : ¬ (bfsTell st fd = 49 * B ∧ N = 700) := by
    rintro ⟨h, _⟩
    apply hfirst
    show bfsTell st fd % B = 0
    rw [h]
    exact Int.mul_emod_left 49 B
  rcases fsWrite_loop st fd src hwf hB hB2 hc hN1 hN hsp with
    ⟨st', w, e⟩ | ⟨st', m, e, _, _, _, _, _⟩
  · rw [e]
    constructor
    · intro f hf
      have hmf : st.dbn (st.fdToInum fd) f ≠ 0 := by
        rcases hf with h | h <;> rw [h]
        · exact hmap1
        · exact hmap2
      have hf0 : 0 ≤ f := by
        rcases hf with h | h <;> rw [h]
        · exact Int.ediv_nonneg hc (le_of_lt hB)
        · exact Int.ediv_nonneg (by omega) (le_of_lt hB)
      have hdbn : st'.dbn (st.fdToInum fd) f = st.dbn (st.fdToInum fd) f :=
        w.dbn_mapped _ _ hmf
      refine ⟨hdbn, ?_⟩
      intro j hj0 hj
      have hx : 0 ≤ f * B + j := by
        have := mul_nonneg hf0 (le_of_lt hB)
        omega
      have hb := w.byte (st.fdToInum fd) (f * B + j) hx
      rw [fileByte_block st' _ f j hB hf0 hj0 hj (by rw [hdbn]; exact hmf),
        fileByte_block st _ f j hB hf0 hj0 hj hmf, hdbn] at hb
      show st'.disk (st.dbn (st.fdToInum fd) f) j = _
      rw [hb]
      simp only [true_and]
      rfl
    · intro x hx1 hx2
      have hb := w.byte (st.fdToInum fd) x (le_trans hc hx1)
      rw [if_pos ⟨rfl, hx1, hx2⟩] at hb
      exact hb
  · rw [e] at hok
    cases hok

theorem fsWrite_keeps_boundary_blocks_witness :
    WF atTwo ∧ fsTell atTwo 3 = 2 ∧
    (fsWrite 4 atTwo 3 8 (some oneToEight)).out = .ret 0 ∧
    (fsWrite 4 atTwo 3 8 (some oneToEight)).st.disk (atTwo.dbn (atTwo.fdToInum 3) 0) 1 =
      atTwo.disk (atTwo.dbn (atTwo.fdToInum 3) 0) 1 ∧
    (fsWrite 4 atTwo 3 8 (some oneToEight)).st.disk (atTwo.dbn (atTwo.fdToInum 3) 0) 2 = 1 := by
  have hwf : WF atTwo :=
    wf_fsSeek (wf_fsWrite wf_fresh 3 12 helloWorld (by decide) (by decide) (by decide)
      (by decide)) 3 2 SEEK_SET
  have h := fsWrite_keeps_boundary_blocks (B := 4) atTwo 3 8 oneToEight hwf (by decide)
    (by decide) (by decide) (by decide) (by decide) (by decide) (by decide) (by decide)
    (by decide) (by decide)
  have h0 := (h.1 (fsTell atTwo 3 / 4) (Or.inl rfl)).2
  refine ⟨hwf, by decide, by decide, ?_, ?_⟩
  · have h1 := h0 1 (by decide) (by decide)
    rw [if_neg (by decide)] at h1
    exact h1
  · have h2 := h0 2 (by decide) (by decide)
    rw [if_pos (by decide)] at h2
    exact h2

/-! ## Write, seek back, read -/

/-- C1, at the failing input: on an empty file with the cursor at
`49 * 512 = 25088`, `fsWrite` of the 700 bytes starting `HelloWorld` returns 0,
and after seeking back `fsRead` of 700 bytes returns 700 but delivers the byte
99 where the source held 72 (`H`): the special-cased branches of `fsWrite` and
`fsRead` neither store nor fetch the data. -/
theorem roundtrip_fails_in_special_branch :
    fsTell atBlock49 3 = 49 * 512 ∧
    (fsWrite 512 atBlock49 3 700 (some helloWorld)).out = .ret 0 ∧
    (writeSeekRead 512 atBlock49 3 700 helloWorld (fun _ => 0)).out = .ret 700 ∧
    (writeSeekRead 512 atBlock49 3 700 helloWorld (fun _ => 0)).byte 0 = 99 ∧
    helloWorld 0 = 72 := by
  decide

/-- A read that ends at or before the end of the file, outside the
special-cased branch, returns the whole request and delivers the file's bytes
from the cursor on. -/
theorem fsRead_within {B : Int} (S : Bfs) (fd N : Int) (out : Mem)
    (hB : 0 < B) (hB2 : B ≤ 2147483647)
    (hc : 0 ≤ bfsTell S fd) (hN1 : 1 ≤ N) (hN : bfsTell S fd + N ≤ 2147483647)
    (hsp : ¬ (bfsTell S fd = 49 * B ∧ N ≥ 700))
    (hsz : bfsTell S fd + N ≤ fsSize S fd) :
    (fsRead B S fd N (some out)).out = .ret N ∧
    ∀ j, 0 ≤ j → j < N →
      (fsRead B S fd N (some out)).byte j = fileByte B S (S.fdToInum fd) (bfsTell S fd + j) := by
  obtain ⟨dest', e2, hd⟩ := fsRead_loop S fd out hB hB2 hc hN1 hN hsp (by omega)
  have hmin : min N (fsSize S fd - bfsTell S fd) = N := min_eq_left (by omega)
  rw [hmin] at e2 hd
  rw [e2]
  refine ⟨rfl, ?_⟩
  intro j hj0 hj
  show dest' j = _
  rw [hd j, if_pos ⟨hj0, hj⟩]

/-- Outside the special-cased branch the round trip holds: in a well-formed
state with cursor `c ≥ 0`, for `N ≥ 0` with `c + N` in the range of `i32`, if
`fsWrite(fd, N, src)` returns, then after seeking back to `c` the call
`fsRead(fd, N, out)` returns `N` and `out[0..N)` holds the bytes of `src`. -/
theorem roundtrip_outside_special_branch {B : Int} (st : Bfs) (fd N : Int) (src out : Mem)
    (hwf : WF st) (hB : 0 < B) (hB2 : B ≤ 2147483647)
    (hc : 0 ≤ fsTell st fd) (hN0 : 0 ≤ N) (hN : fsTell st fd + N ≤ 2147483647)
    (hsp : ¬ (fsTell st fd = 49 * B ∧ N ≥ 700))
    (hok : (fsWrite B st fd N (some src)).out = .ret 0) :
    (writeSeekRead B st fd N src out).out = .ret N ∧
    ∀ j, 0 ≤ j → j < N → (writeSeekRead B st fd N src out).byte j = src j := by
  by_cases hz : N = 0
  · subst hz
    unfold writeSeekRead
    rw [fsRead_zero]
    exact ⟨rfl, fun j h1 h2 => absurd h2 (by omega)⟩
  have hN1 : 1 ≤ N := by omega
  have hc' : (0 : Int) ≤ bfsTell st fd := hc
  have hN' : bfsTell st fd + N ≤ 2147483647 := hN
  have hspw : ¬ (bfsTell st fd = 49 * B ∧ N = 700) := fun h => hsp ⟨h.1, by omega⟩
  rcases fsWrite_loop st fd src hwf hB hB2 hc hN1 hN hspw with
    ⟨st', w, e⟩ | ⟨st', m, e, _, _, _, _, _⟩
  · have hfd : st'.fdToInum = st.fdToInum := w.fdToInum_eq
    have hof : st'.findOFTE = st.findOFTE := w.findOFTE_eq
    have hT : bfsTell (fsSeek (fsWrite B st fd N (some src)).st fd (fsTell st fd) SEEK_SET).2 fd
        = bfsTell st fd := by
      rw [e, fsSeek_set _ fd _ hc]
      show upd _ (st'.findOFTE (st'.fdToInum fd)) (fsTell st fd) (st'.findOFTE (st'.fdToInum fd))
        = _
      rw [upd_same]; rfl
    have hSz : fsSize (fsSeek (fsWrite B st fd N (some src)).st fd (fsTell st fd) SEEK_SET).2 fd
        = max (st.size (st.fdToInum fd)) (bfsTell st fd + N) := by
      rw [e, fsSeek_set _ fd _ hc]
      show upd st.size (st.fdToInum fd) _ (st'.fdToInum fd) = _
      rw [hfd, upd_same]
    have hI : (fsSeek (fsWrite B st fd N (some src)).st fd (fsTell st fd) SEEK_SET).2.fdToInum fd
        = st.fdToInum fd := by
      rw [e, fsSeek_set _ fd _ hc]
      show st'.fdToInum fd = _
      rw [hfd]
    have hBy : ∀ x, fileByte B
        (fsSeek (fsWrite B st fd N (some src)).st fd (fsTell st fd) SEEK_SET).2
        (st.fdToInum fd) x = fileByte B st' (st.fdToInum fd) x := by
      intro x
      rw [e, fsSeek_set _ fd _ hc]
      rfl
    have hge : bfsTell st fd + N ≤ max (st.size (st.fdToInum fd)) (bfsTell st fd + N) :=
      le_max_right _ _
    obtain ⟨h1, h2⟩ := fsRead_within
      (fsSeek (fsWrite B st fd N (some src)).st fd (fsTell st fd) SEEK_SET).2 fd N out hB hB2
      (by rw [hT]; exact hc) hN1 (by rw [hT]; exact hN) (by rw [hT]; exact hsp)
      (by rw [hT, hSz]; exact hge)
    refine ⟨h1, ?_⟩
    intro j hj0 hj
    show (fsRead B _ fd N (some out)).byte j = src j
    rw [h2 j hj0 hj, hI, hT, hBy, w.byte _ _ (by omega), if_pos ⟨rfl, by omega, by omega⟩]
    congr 1
    ring
  · rw [e] at hok
    cases hok

theorem roundtrip_outside_special_branch_example :
    (writeSeekRead 4 atTwo 3 8 oneToEight (fun _ => 0)).out = .ret 8 ∧
    (writeSeekRead 4 atTwo 3 8 oneToEight (fun _ => 0)).byte 5 = oneToEight 5 := by
  have hwf : WF atTwo :=
    wf_fsSeek (wf_fsWrite wf_fresh 3 12 helloWorld (by decide) (by decide) (by decide)
      (by decide)) 3 2 SEEK_SET
  have h := roundtrip_outside_special_branch (B := 4) atTwo 3 8 oneToEight (fun _ => 0) hwf
    (by decide) (by decide) (by decide) (by decide) (by decide) (by decide) (by decide)
  exact ⟨h.1, h.2 5 (by decide) (by decide)⟩

/-! ## Writing past the end of an empty file -/

theorem fileByte_unmapped (B : Int) (st : Bfs) (i x : Int)
    (h : ∀ f, st.dbn i f = 0) : fileByte B st i x = 0 := by
  unfold fileByte
  rw [bfsRead_apply, if_pos (h _)]

/-- Writing at the cursor of an empty, unmapped file, outside the
special-cased branch: the size becomes cursor plus count, and a read of that
many bytes from position 0 delivers zeros up to the old cursor and the source
bytes after it. -/
theorem hole_then_data {B : Int} (S1 : Bfs) (fd N : Int) (src out : Mem)
    (hwf : WF S1) (hB : 0 < B) (hB2 : B ≤ 2147483647)
    (hsize : fsSize S1 fd = 0) (hun : ∀ f, S1.dbn (S1.fdToInum fd) f = 0)
    (hp : 0 ≤ bfsTell S1 fd) (hN1 : 1 ≤ N) (hN : bfsTell S1 fd + N ≤ 2147483647)
    (hsp : ¬ (bfsTell S1 fd = 49 * B ∧ N = 700))
    (hok : (fsWrite B S1 fd N (some src)).out = .ret 0) :
    fsSize (fsWrite B S1 fd N (some src)).st fd = bfsTell S1 fd + N ∧
    (fsRead B (fsSeek (fsWrite B S1 fd N (some src)).st fd 0 SEEK_SET).2 fd
      (bfsTell S1 fd + N) (some out)).out = .ret (bfsTell S1 fd + N) ∧
    ∀ j, 0 ≤ j → j < bfsTell S1 fd + N →
      (fsRead B (fsSeek (fsWrite B S1 fd N (some src)).st fd 0 SEEK_SET).2 fd
        (bfsTell S1 fd + N) (some out)).byte j =
        if j < bfsTell S1 fd then 0 else src (j - bfsTell S1 fd) := by
  have hs0 : S1.size (S1.fdToInum fd) = 0 := hsize
  rcases fsWrite_loop S1 fd src hwf hB hB2 hp hN1 hN hsp with
    ⟨st', w, e⟩ | ⟨st', m, e, _, _, _, _, _⟩
  · have hfd : st'.fdToInum = S1.fdToInum := w.fdToInum_eq
    have hof : st'.findOFTE = S1.findOFTE := w.findOFTE_eq
    have hmax : max (S1.size (S1.fdToInum fd)) (bfsTell S1 fd + N) = bfsTell S1 fd + N := by
      rw [hs0]; exact max_eq_right (by omega)
    have hT : bfsTell (fsSeek (fsWrite B S1 fd N (some src)).st fd 0 SEEK_SET).2 fd = 0 := by
      rw [e, fsSeek_set _ fd _ (le_refl _)]
      show upd _ (st'.findOFTE (st'.fdToInum fd)) 0 (st'.findOFTE (st'.fdToInum fd)) = _
      rw [upd_same]
    have hSz : fsSize (fsSeek (fsWrite B S1 fd N (some src)).st fd 0 SEEK_SET).2 fd
        = bfsTell S1 fd + N := by
      rw [e, fsSeek_set _ fd _ (le_refl _)]
      show upd S1.size (S1.fdToInum fd) _ (st'.fdToInum fd) = _
      rw [hfd, upd_same, hmax]
    have hI : (fsSeek (fsWrite B S1 fd N (some src)).st fd 0 SEEK_SET).2.fdToInum fd
        = S1.fdToInum fd := by
      rw [e, fsSeek_set _ fd _ (le_refl _)]
      show st'.fdToInum fd = _
      rw [hfd]
    have hBy : ∀ x, fileByte B (fsSeek (fsWrite B S1 fd N (some src)).st fd 0 SEEK_SET).2
        (S1.fdToInum fd) x = fileByte B st' (S1.fdToInum fd) x := by
      intro x
      rw [e, fsSeek_set _ fd _ (le_refl _)]
      rfl
    obtain ⟨h1, h2⟩ := fsRead_within
      (fsSeek (fsWrite B S1 fd N (some src)).st fd 0 SEEK_SET).2 fd (bfsTell S1 fd + N) out
      hB hB2 (by rw [hT]) (by omega) (by rw [hT]; omega)
      (by rw [hT]; rintro ⟨h, _⟩; omega) (by rw [hT, hSz]; omega)
    refine ⟨?_, h1, ?_⟩
    · rw [e]
      show upd S1.size (S1.fdToInum fd) _ (st'.fdToInum fd) = _
      rw [hfd, upd_same, hmax]
    · intro j hj0 hj
      rw [h2 j hj0 hj, hI, hT, hBy, zero_add, w.byte _ _ hj0]
      by_cases hlt : j < bfsTell S1 fd
      · rw [if_pos hlt, if_neg (by omega), fileByte_unmapped B S1 _ j hun]
      · rw [if_neg hlt, if_pos ⟨rfl, by omega, hj⟩]
  · rw [e] at hok
    cases hok

/-- Outside the special-cased branch the sparse-file scenario holds for every
offset: on an empty file with no block mapped, after `fsSeek(fd, p, SEEK_SET)`
and an `fsWrite(fd, N, src)` that returns, the size is `p + N`, and reading
`p + N` bytes from cursor 0 returns `p` zero bytes followed by the `N` source
bytes. -/
theorem sparse_write_outside_special_branch {B : Int} (st : Bfs) (fd p N : Int)
    (src out : Mem) (hwf : WF st) (hB : 0 < B) (hB2 : B ≤ 2147483647)
    (hsize : fsSize st fd = 0) (hun : ∀ f, st.dbn (st.fdToInum fd) f = 0)
    (hp : 0 ≤ p) (hN1 : 1 ≤ N) (hN : p + N ≤ 2147483647)
    (hsp : ¬ (p = 49 * B ∧ N = 700))
    (hok : (seekWrite B st fd p N src).out = .ret 0) :
    fsSize (seekWrite B st fd p N src).st fd = p + N ∧
    (seekWriteRead B st fd p N src out).out = .ret (p + N) ∧
    ∀ j, 0 ≤ j → j < p + N →
      (seekWriteRead B st fd p N src out).byte j = if j < p then 0 else src (j - p) := by
  have hT : bfsTell (fsSeek st fd p SEEK_SET).2 fd = p := by
    rw [fsSeek_set st fd p hp]
    show upd _ (st.findOFTE (st.fdToInum fd)) p (st.findOFTE (st.fdToInum fd)) = _
    rw [upd_same]
  have h := hole_then_data (B := B) (fsSeek st fd p SEEK_SET).2 fd N src out
    (wf_fsSeek hwf fd p SEEK_SET) hB hB2
    (by rw [fsSeek_set st fd p hp]; exact hsize)
    (by rw [fsSeek_set st fd p hp]; exact hun)
    (by rw [hT]; exact hp) hN1 (by rw [hT]; exact hN) (by rw [hT]; exact hsp) hok
  rw [hT] at h
  exact h

theorem sparse_write_outside_special_branch_example :
    fsSize (seekWrite 512 fresh 3 5000 4 helloWorld).st 3 = 5004 ∧
    (seekWriteRead 512 fresh 3 5000 4 helloWorld (fun _ => 7)).out = .ret 5004 ∧
    (seekWriteRead 512 fresh 3 5000 4 helloWorld (fun _ => 7)).byte 4999 = 0 ∧
    (seekWriteRead 512 fresh 3 5000 4 helloWorld (fun _ => 7)).byte 5000 = 72 := by
  have h := sparse_write_outside_special_branch (B := 512) fresh 3 5000 4 helloWorld
    (fun _ => 7) wf_fresh (by decide) (by decide) (by decide) (fun _ => rfl) (by decide)
    (by decide) (by decide) (by decide) (by decide)
  refine ⟨h.1, h.2.1, ?_, ?_⟩
  · rw [h.2.2 4999 (by decide) (by decide)]; rfl
  · rw [h.2.2 5000 (by decide) (by decide)]; rfl

/-- C6, at the failing input: on a fresh empty file, after
`fsSeek(fd, 25088, SEEK_SET)` (`25088 = 49 * 512`) and `fsWrite` of the 700
bytes starting `HelloWorld`, the size is 25788, but reading 25788 bytes from
cursor 0 delivers 0 at index 25088 where the source held 72 (`H`): the
special-cased branch of `fsWrite` stored nothing. -/
theorem sparse_write_fails_in_special_branch :
    (seekWrite 512 fresh 3 25088 700 helloWorld).out = .ret 0 ∧
    fsSize (seekWrite 512 fresh 3 25088 700 helloWorld).st 3 = 25788 ∧
    (seekWriteRead 512 fresh 3 25088 700 helloWorld (fun _ => 7)).out = .ret 25788 ∧
    (seekWriteRead 512 fresh 3 25088 700 helloWorld (fun _ => 7)).byte 25088 = 0 ∧
    helloWorld 0 = 72 := by
  obtain ⟨h1, h2⟩ := fsRead_within (B := 512)
    (fsSeek (seekWrite 512 fresh 3 25088 700 helloWorld).st 3 0 SEEK_SET).2 3 25788
    (fun _ => 7) (by decide) (by decide) (by decide) (by decide) (by decide) (by decide)
    (by decide)
  refine ⟨by decide, by decide, h1, ?_, by decide⟩
  show (fsRead 512 _ 3 25788 (some (fun _ => 7))).byte 25088 = 0
  rw [h2 25088 (by decide) (by decide)]
  decide

/-! ## Argument checks -/

/-- C11. Negative length is rejected before anything else happens: for every
count below 0, every descriptor, every state and every buffer, null or not,
`fsRead` and `fsWrite` abort with `ENEGNUMB` and leave the state (cursor, size,
block map, block contents) and the buffer as they were. -/
theorem negative_count_rejected (B : Int) (st : Bfs) (fd N : Int) (buf : Option Mem)
    (h : N < 0) :
    ((fsRead B st fd N buf).out = .fatal .ENEGNUMB ∧ (fsRead B st fd N buf).st = st ∧
      (fsRead B st fd N buf).buf = buf) ∧
    ((fsWrite B st fd N buf).out = .fatal .ENEGNUMB ∧ (fsWrite B st fd N buf).st = st ∧
      (fsWrite B st fd N buf).buf = buf) := by
  rw [fsRead_neg B st fd buf h, fsWrite_neg B st fd buf h]
  exact ⟨⟨rfl, rfl, rfl⟩, ⟨rfl, rfl, rfl⟩⟩

theorem negative_count_rejected_witness :
    (-1 : Int) < 0 ∧
    (fsRead 512 atFive 3 (-1) (some helloWorld)).out = .fatal .ENEGNUMB ∧
    (fsRead 512 atFive 3 (-1) (some helloWorld)).st = atFive ∧
    (fsWrite 512 atFive 3 (-1) none).out = .fatal .ENEGNUMB ∧
    (fsWrite 512 atFive 3 (-1) none).st = atFive :=
  ⟨by decide,
    (negative_count_rejected 512 atFive 3 (-1) (some helloWorld) (by decide)).1.1,
    (negative_count_rejected 512 atFive 3 (-1) (some helloWorld) (by decide)).1.2.1,
    (negative_count_rejected 512 atFive 3 (-1) none (by decide)).2.1,
    (negative_count_rejected 512 atFive 3 (-1) none (by decide)).2.2.1⟩

/-- C12, the claim as stated fails: with count 0 and a null buffer both
`fsRead` and `fsWrite` return 0; the test `numb == 0` comes before the test
`buf == NULL`. -/
theorem null_buffer_zero_count_returns :
    (fsRead 512 fresh 3 0 none).out = .ret 0 ∧ (fsWrite 512 fresh 3 0 none).out = .ret 0 := by
  decide

/-- C12 (amended). An unusable buffer is fatal when something is to be
transferred: for every count `N ≥ 1`, `fsRead` with a null destination and
`fsWrite` with a null source abort with `ENULLPTR`, the state unchanged; with
count 0 both return 0. -/
theorem null_buffer_rejected (B : Int) (st : Bfs) (fd N : Int) :
    (1 ≤ N →
      (fsRead B st fd N none).out = .fatal .ENULLPTR ∧ (fsRead B st fd N none).st = st ∧
      (fsWrite B st fd N none).out = .fatal .ENULLPTR ∧ (fsWrite B st fd N none).st = st) ∧
    (N = 0 →
      (fsRead B st fd N none).out = .ret 0 ∧ (fsWrite B st fd N none).out = .ret 0) := by
  constructor
  · intro h
    rw [fsRead_null B st fd h, fsWrite_null B st fd h]
    exact ⟨rfl, rfl, rfl, rfl⟩
  · intro h
    subst h
    rw [fsRead_zero, fsWrite_zero]
    exact ⟨rfl, rfl⟩

theorem null_buffer_rejected_witness :
    (1 : Int) ≤ 10 ∧
    (fsRead 512 atFive 3 10 none).out = .fatal .ENULLPTR ∧
    (fsWrite 512 atFive 3 10 none).out = .fatal .ENULLPTR ∧
    (fsWrite 512 atFive 3 10 none).st = atFive :=
  ⟨by decide,
    ((null_buffer_rejected 512 atFive 3 10).1 (by decide)).1,
    ((null_buffer_rejected 512 atFive 3 10).1 (by decide)).2.2.1,
    ((null_buffer_rejected 512 atFive 3 10).1 (by decide)).2.2.2⟩

/-! ## The special-cased branch -/

/-- C16, the claim as stated fails: with the cursor at `49 * 512` and count
701, which is not 700, `fsRead` does not run its block-mapped path (on this
empty file that path returns 0): it returns 700 and delivers the byte 99. -/
theorem fsRead_special_at_701 :
    fsTell atBlock49 3 = 49 * 512 ∧ (701 : Int) ≠ 700 ∧
    (readMapped 512 atBlock49 3 701 (fun _ => 0)).out = .ret 0 ∧
    (fsRead 512 atBlock49 3 701 (some (fun _ => 0))).out = .ret 700 ∧
    (fsRead 512 atBlock49 3 701 (some (fun _ => 0))).byte 0 = 99 := by
  decide

/-- C16 (amended). The special-cased branch is confined to one cursor: for
every count `N ≥ 1` and non-null buffer, `fsRead` takes the branch that
fabricates the byte pattern exactly when the cursor is `49 * B` and `N ≥ 700`,
`fsWrite` exactly when the cursor is `49 * B` and `N = 700`; in every other
case each runs its block-mapped path. -/
theorem special_branch_condition (B : Int) (st : Bfs) (fd N : Int) (m : Mem) (hN : 1 ≤ N) :
    ((fsTell st fd = 49 * B ∧ N ≥ 700) → fsRead B st fd N (some m) = readFabricated st fd N m) ∧
    (¬ (fsTell st fd = 49 * B ∧ N ≥ 700) → fsRead B st fd N (some m) = readMapped B st fd N m) ∧
    ((fsTell st fd = 49 * B ∧ N = 700) →
      fsWrite B st fd N (some m) = writeFabricated st fd N m) ∧
    (¬ (fsTell st fd = 49 * B ∧ N = 700) →
      fsWrite B st fd N (some m) = writeMapped B st fd N m) := by
  have h1 : ¬ N < 0 := by omega
  have h2 : ¬ N = 0 := by omega
  refine ⟨?_, ?_, ?_, ?_⟩
  · intro h
    have h' : st.curs (bfsFindOFTE st (bfsFdToInum st fd)) = 49 * B ∧ N ≥ 700 := h
    unfold fsRead readFabricated
    simp only [if_neg h1, if_neg h2, if_pos h']
  · intro h
    have h' : ¬ (st.curs (bfsFindOFTE st (bfsFdToInum st fd)) = 49 * B ∧ N ≥ 700) := h
    unfold fsRead readMapped
    simp only [if_neg h1, if_neg h2, if_neg h']
  · intro h
    have h' : st.curs (bfsFindOFTE st (bfsFdToInum st fd)) = 49 * B ∧ N = 700 := h
    unfold fsWrite writeFabricated
    simp only [if_neg h1, if_neg h2, if_pos h']
  · intro h
    have h' : ¬ (st.curs (bfsFindOFTE st (bfsFdToInum st fd)) = 49 * B ∧ N = 700) := h
    unfold fsWrite writeMapped
    simp only [if_neg h1, if_neg h2, if_neg h']

theorem special_branch_condition_witness :
    (1 : Int) ≤ 701 ∧
    fsRead 512 atBlock49 3 701 (some helloWorld) = readFabricated atBlock49 3 701 helloWorld ∧
    fsWrite 512 atBlock49 3 701 (some helloWorld) = writeMapped 512 atBlock49 3 701 helloWorld ∧
    fsRead 512 atFive 3 700 (some helloWorld) = readMapped 512 atFive 3 700 helloWorld :=
  ⟨by decide,
    (special_branch_condition 512 atBlock49 3 701 helloWorld (by decide)).1 (by decide),
    (special_branch_condition 512 atBlock49 3 701 helloWorld (by decide)).2.2.2 (by decide),
    (special_branch_condition 512 atFive 3 700 helloWorld (by decide)).2.1 (by decide)⟩

/-! ## The caller's source buffer -/

/-- Outside the special-cased branch `fsWrite` hands the caller's buffer back
as it got it. -/
theorem fsWrite_keeps_source (B : Int) (st : Bfs) (fd N : Int) (src : Mem)
    (hsp : ¬ (fsTell st fd = 49 * B ∧ N = 700)) :
    (fsWrite B st fd N (some src)).buf = some src := by
  have h' : ¬ (st.curs (bfsFindOFTE st (bfsFdToInum st fd)) = 49 * B ∧ N = 700) := hsp
  by_cases h1 : N < 0
  · rw [fsWrite_neg B st fd _ h1]
  by_cases h2 : N = 0
  · subst h2
    rw [fsWrite_zero]
  unfold fsWrite
  simp only [if_neg h1, if_neg h2, if_neg h']
  split <;> rfl

/-- C20, at the failing input: on an empty file with the cursor at
`49 * 512 = 25088`, `fsWrite` of the 700 bytes starting `HelloWorld` returns 0
and leaves the byte 99 in the caller's source buffer where it held 72 (`H`):
the special-cased branch runs `memset` on the source. -/
theorem fsWrite_special_overwrites_source :
    fsTell atBlock49 3 = 49 * 512 ∧
    (fsWrite 512 atBlock49 3 700 (some helloWorld)).out = .ret 0 ∧
    (fsWrite 512 atBlock49 3 700 (some helloWorld)).byte 0 = 99 ∧
    helloWorld 0 = 72 := by
  decide

/-! ## What no call touches, whatever the arithmetic does -/

theorem writeBody_frame_any (B inum c N : Int) (src : Mem) (st : Bfs) (k : Int) :
    (∀ st1, writeBody B inum c N src st k = .error st1 → Frame st st1) ∧
    (∀ st1 k1, writeBody B inum c N src st k = .ok (st1, k1) → Frame st st1) := by
  have hal := frame_bfsAllocBlock st inum (Int.tdiv (wrap (c + k)) B)
  unfold writeBody
  simp only []
  by_cases hd : bfsFbnToDbn st inum (Int.tdiv (wrap (c + k)) B) = 0
  · simp only [hd, if_true]
    by_cases hd2 : (bfsAllocBlock st inum (Int.tdiv (wrap (c + k)) B)).1 = 0
    · simp only [hd2, if_true]
      constructor
      · intro st1 h
        injection h with h
        rw [← h]
        exact hal
      · intro st1 k1 h
        cases h
    · simp only [hd2, if_false]
      constructor
      · intro st1 h
        cases h
      · intro st1 k1 h
        injection h with h
        injection h with h3 h4
        rw [← h3]
        exact ⟨hal.fdToInum_eq, hal.findOFTE_eq, hal.curs_eq, hal.size_eq⟩
  · simp only [hd, if_false]
    constructor
    · intro st1 h
      cases h
    · intro st1 k1 h
      injection h with h
      injection h with h3 h4
      rw [← h3]
      exact ⟨rfl, rfl, rfl, rfl⟩

theorem writeLoop_frame_any (B inum c N : Int) (src : Mem) :
    ∀ (fuel : Nat) (st : Bfs) (k : Int),
      (∀ st' n, writeLoop B inum c N src fuel st k = .done st' n → Frame st st') ∧
      (∀ st', writeLoop B inum c N src fuel st k = .full st' → Frame st st') := by
  intro fuel
  induction fuel with
  | zero =>
    intro st k
    unfold writeLoop
    by_cases hlt : k < N
    · simp only [hlt, if_true]
      exact ⟨fun _ _ h => (by cases h), fun _ h => (by cases h)⟩
    · simp only [hlt, if_false]
      refine ⟨fun st' n h => ?_, fun _ h => (by cases h)⟩
      injection h with h1 h2
      rw [← h1]
      exact frame_refl st
  | succ fuel ih =>
    intro st k
    rw [writeLoop]
    by_cases hlt : k < N
    · simp only [hlt, if_true]
      have hb := writeBody_frame_any B inum c N src st k
      cases hw : writeBody B inum c N src st k with
      | error st1 =>
        simp only []
        refine ⟨fun _ _ h => (by cases h), fun st' h => ?_⟩
        injection h with h1
        rw [← h1]
        exact hb.1 st1 hw
      | ok p =>
        obtain ⟨st1, k1⟩ := p
        simp only []
        have f1 := hb.2 st1 k1 hw
        exact ⟨fun st' n h => frame_trans f1 ((ih st1 k1).1 st' n h),
          fun st' h => frame_trans f1 ((ih st1 k1).2 st' h)⟩
    · simp only [hlt, if_false]
      refine ⟨fun st' n h => ?_, fun _ h => (by cases h)⟩
      injection h with h1 h2
      rw [← h1]
      exact frame_refl st

/-- Whatever its arguments, `fsRead` leaves behind the state it found or that
state with one new value for the session cursor. -/
theorem fsRead_state (B : Int) (st : Bfs) (fd N : Int) (buf : Option Mem) :
    (fsRead B st fd N buf).st = st ∨
    ∃ v, (fsRead B st fd N buf).st =
      { st with curs := upd st.curs (st.findOFTE (st.fdToInum fd)) v } := by
  by_cases h1 : N < 0
  · rw [fsRead_neg B st fd buf h1]; exact Or.inl rfl
  by_cases h2 : N = 0
  · subst h2
    rw [fsRead_zero]; exact Or.inl rfl
  cases buf with
  | none => rw [fsRead_null B st fd (by omega)]; exact Or.inl rfl
  | some dest =>
    unfold fsRead
    simp only [if_neg h1, if_neg h2]
    by_cases hsp : st.curs (bfsFindOFTE st (bfsFdToInum st fd)) = 49 * B ∧ N ≥ 700
    · simp only [if_pos hsp]
      exact Or.inr ⟨_, rfl⟩
    · simp only [if_neg hsp]
      by_cases heof : st.curs (bfsFindOFTE st (bfsFdToInum st fd)) ≥
          bfsGetSize st (bfsFdToInum st fd)
      · rw [if_pos heof]
        exact Or.inl rfl
      · rw [if_neg heof]
        generalize readLoop _ _ _ _ _ _ _ _ = o
        cases o with
        | none => exact Or.inl rfl
        | some p => exact Or.inr ⟨_, rfl⟩

/-- Whatever its arguments, `fsWrite` leaves the session table alone, and the
sizes either as they were or with the file's size replaced by a larger one. -/
theorem fsWrite_state (B : Int) (st : Bfs) (fd N : Int) (buf : Option Mem) :
    (fsWrite B st fd N buf).st.fdToInum = st.fdToInum ∧
    (fsWrite B st fd N buf).st.findOFTE = st.findOFTE ∧
    ((fsWrite B st fd N buf).st.size = st.size ∨
      ∃ v, st.size (st.fdToInum fd) < v ∧
        (fsWrite B st fd N buf).st.size = upd st.size (st.fdToInum fd) v) := by
  by_cases h1 : N < 0
  · rw [fsWrite_neg B st fd buf h1]; exact ⟨rfl, rfl, Or.inl rfl⟩
  by_cases h2 : N = 0
  · subst h2
    rw [fsWrite_zero]; exact ⟨rfl, rfl, Or.inl rfl⟩
  cases buf with
  | none => rw [fsWrite_null B st fd (by omega)]; exact ⟨rfl, rfl, Or.inl rfl⟩
  | some src =>
    unfold fsWrite
    simp only [if_neg h1, if_neg h2]
    by_cases hsp : st.curs (bfsFindOFTE st (bfsFdToInum st fd)) = 49 * B ∧ N = 700
    · simp only [if_pos hsp]
      by_cases hgt : wrap (st.curs (bfsFindOFTE st (bfsFdToInum st fd)) + N) >
          st.size (bfsFdToInum st fd)
      · refine ⟨?_, ?_, Or.inr ⟨wrap (st.curs (bfsFindOFTE st (bfsFdToInum st fd)) + N),
          hgt, ?_⟩⟩ <;> simp only [bfsGetSize, hgt, if_true] <;> rfl
      · refine ⟨?_, ?_, Or.inl ?_⟩ <;> simp only [bfsGetSize, hgt, if_false]
    · simp only [if_neg hsp]
      have hl := writeLoop_frame_any B (bfsFdToInum st fd)
        (st.curs (bfsFindOFTE st (bfsFdToInum st fd))) N src N.toNat st 0
      generalize hw : writeLoop B (bfsFdToInum st fd)
        (st.curs (bfsFindOFTE st (bfsFdToInum st fd))) N src N.toNat st 0 = r at hl
      cases r with
      | fuelOut => exact ⟨rfl, rfl, Or.inl rfl⟩
      | full st' =>
        have f := hl.2 st' rfl
        exact ⟨f.fdToInum_eq, f.findOFTE_eq, Or.inl f.size_eq⟩
      | done st' n =>
        have f := hl.1 st' n rfl
        simp only [bfsGetSize]
        by_cases hgt : wrap (st.curs (bfsFindOFTE st (bfsFdToInum st fd)) + n) >
            st'.size (bfsFdToInum st fd)
        · simp only [hgt, if_true]
          refine ⟨f.fdToInum_eq, f.findOFTE_eq,
            Or.inr ⟨wrap (st.curs (bfsFindOFTE st (bfsFdToInum st fd)) + n), ?_, ?_⟩⟩
          · rw [f.size_eq] at hgt
            exact hgt
          · show upd st'.size _ _ = _
            rw [f.size_eq]
            rfl
        · simp only [hgt, if_false]
          exact ⟨f.fdToInum_eq, f.findOFTE_eq, Or.inl f.size_eq⟩

theorem fsSeek_state (st : Bfs) (fd offset whence : Int) :
    (fsSeek st fd offset whence).2 = st ∨
    ∃ v, (fsSeek st fd offset whence).2 =
      { st with curs := upd st.curs (st.findOFTE (st.fdToInum fd)) v } := by
  unfold fsSeek
  split_ifs
  · exact Or.inl rfl
  · exact Or.inr ⟨_, rfl⟩
  · exact Or.inr ⟨_, rfl⟩
  · exact Or.inr ⟨_, rfl⟩
  · exact Or.inl rfl

/-- C14. File size never decreases: for every state and every call of
`fsRead`, `fsWrite` or `fsSeek`, whatever its arguments and however it ends,
no file's size afterwards is below its size before; `fsRead` and `fsSeek`
leave every size exactly unchanged, and `fsWrite` either leaves every size
unchanged or sets the size of its file to a value above the current one. -/
theorem size_never_decreases (B : Int) (st : Bfs) (fd N : Int) (buf : Option Mem)
    (offset whence : Int) :
    ((fsRead B st fd N buf).st.size = st.size ∧
      fsSize (fsRead B st fd N buf).st fd = fsSize st fd) ∧
    ((fsSeek st fd offset whence).2.size = st.size ∧
      fsSize (fsSeek st fd offset whence).2 fd = fsSize st fd) ∧
    ((∀ i, st.size i ≤ (fsWrite B st fd N buf).st.size i) ∧
      fsSize st fd ≤ fsSize (fsWrite B st fd N buf).st fd ∧
      ((fsWrite B st fd N buf).st.size = st.size ∨
        ∃ v, st.size (st.fdToInum fd) < v ∧
          (fsWrite B st fd N buf).st.size = upd st.size (st.fdToInum fd) v)) := by
  refine ⟨?_, ?_, ?_⟩
  · rcases fsRead_state B st fd N buf with h | ⟨v, h⟩ <;> rw [h] <;> exact ⟨rfl, rfl⟩
  · rcases fsSeek_state st fd offset whence with h | ⟨v, h⟩ <;> rw [h] <;> exact ⟨rfl, rfl⟩
  · obtain ⟨h1, h2, h3⟩ := fsWrite_state B st fd N buf
    have hmono : ∀ i, st.size i ≤ (fsWrite B st fd N buf).st.size i := by
      intro i
      rcases h3 with h | ⟨v, hv, h⟩
      · rw [h]
      · rw [h]
        by_cases hi : i = st.fdToInum fd
        · subst hi
          rw [upd_same]
          exact le_of_lt hv
        · rw [upd_ne _ _ hi]
    refine ⟨hmono, ?_, h3⟩
    show st.size (st.fdToInum fd) ≤
      (fsWrite B st fd N buf).st.size ((fsWrite B st fd N buf).st.fdToInum fd)
    rw [h1]
    exact hmono _

/-! ## The bytes `fsRead` delivers -/

/-- C17 (amended). The read loop delivers the file's logical bytes: whenever `fsRead`
runs its block loop (cursor `c` with `0 ≤ c < s`, count at least 1 with
`c + count` in the range of `i32`, special-cased branch not taken), it returns
`n = min(count, s - c)`, and for every `i` in `[0, n)` the destination byte
`i` is byte `(c + i) mod B` of the block that `bfsRead` yields for file block
`(c + i) / B`; sizes, block map, block contents and free list are unchanged. -/
theorem fsRead_delivers_file_bytes {B : Int} (st : Bfs) (fd N : Int) (dest : Mem)
    (hB : 0 < B) (hB2 : B ≤ 2147483647)
    (hc : 0 ≤ fsTell st fd) (hlt : fsTell st fd < fsSize st fd)
    (hN1 : 1 ≤ N) (hN : fsTell st fd + N ≤ 2147483647)
    (hsp : ¬ (fsTell st fd = 49 * B ∧ N ≥ 700)) :
    (fsRead B st fd N (some dest)).out = .ret (min N (fsSize st fd - fsTell st fd)) ∧
    (∀ i, 0 ≤ i → i < min N (fsSize st fd - fsTell st fd) →
      (fsRead B st fd N (some dest)).byte i =
        bfsRead st (st.fdToInum fd) ((fsTell st fd + i) / B) ((fsTell st fd + i) % B)) ∧
    (fsRead B st fd N (some dest)).st.size = st.size ∧
    (fsRead B st fd N (some dest)).st.dbn = st.dbn ∧
    (fsRead B st fd N (some dest)).st.disk = st.disk ∧
    (fsRead B st fd N (some dest)).st.free = st.free := by
  obtain ⟨dest', e, hd⟩ := fsRead_loop st fd dest hB hB2 hc hN1 hN hsp hlt
  rw [e]
  refine ⟨rfl, ?_, rfl, rfl, rfl, rfl⟩
  intro i hi0 hi
  show dest' i = _
  have hi' : 0 ≤ i ∧ i < min N (fsSize st fd - bfsTell st fd) := ⟨hi0, hi⟩
  have hc' : (0 : Int) ≤ bfsTell st fd := hc
  rw [hd i, if_pos hi', fileByte_eq st _ hB (by omega)]
  rfl

theorem fsRead_delivers_file_bytes_witness :
    (0 : Int) ≤ fsTell atTwo 3 ∧ fsTell atTwo 3 < fsSize atTwo 3 ∧
    (fsRead 4 atTwo 3 20 (some (fun _ => 7))).out = .ret 10 ∧
    (fsRead 4 atTwo 3 20 (some (fun _ => 7))).byte 3 = 87 := by
  have h := fsRead_delivers_file_bytes (B := 4) atTwo 3 20 (fun _ => 7) (by decide) (by decide)
    (by decide) (by decide) (by decide) (by decide) (by decide)
  refine ⟨by decide, by decide, h.1, ?_⟩
  rw [h.2.1 3 (by decide) (by decide)]
  decide

/-! ## The cursor over a sequence of calls -/

/-- A returning `fsRead` whose additions are in range returns a count that is
not negative and advances the cursor by it. -/
theorem fsRead_cursor {B : Int} (st : Bfs) (fd N : Int) (buf : Option Mem)
    (hB : 0 < B) (hB2 : B ≤ 2147483647)
    (hc : 0 ≤ fsTell st fd) (hN : fsTell st fd + N ≤ 2147483647)
    {n : Int} (hret : (fsRead B st fd N buf).out = .ret n) :
    0 ≤ n ∧ fsTell (fsRead B st fd N buf).st fd = fsTell st fd + n := by
  have hcurs : ∀ v : Int, fsTell
      ({ st with curs := upd st.curs (st.findOFTE (st.fdToInum fd)) v } : Bfs) fd = v := by
    intro v
    show upd st.curs (st.findOFTE (st.fdToInum fd)) v (st.findOFTE (st.fdToInum fd)) = v
    rw [upd_same]
  by_cases hneg : N < 0
  · rw [fsRead_neg B st fd buf hneg] at hret
    cases hret
  by_cases hz : N = 0
  · subst hz
    rw [fsRead_zero] at hret ⊢
    injection hret with h
    subst h
    exact ⟨le_refl _, by simp⟩
  have hN1 : 1 ≤ N := by omega
  cases buf with
  | none =>
    rw [fsRead_null B st fd hN1] at hret
    cases hret
  | some m =>
    by_cases hsp : bfsTell st fd = 49 * B ∧ N ≥ 700
    · rw [fsRead_special st fd m hsp.1 hc hsp.2 hN] at hret ⊢
      injection hret with h
      subst h
      exact ⟨by decide, hcurs _⟩
    · by_cases heof : bfsTell st fd ≥ fsSize st fd
      · rw [fsRead_eof st fd m hN1 hsp heof] at hret ⊢
        injection hret with h
        subst h
        exact ⟨le_refl _, by simp⟩
      · obtain ⟨dest', e, _⟩ := fsRead_loop st fd m hB hB2 hc hN1 hN hsp (not_le.1 heof)
        have hlt : bfsTell st fd < fsSize st fd := not_le.1 heof
        rw [e] at hret ⊢
        injection hret with h
        subst h
        refine ⟨?_, hcurs _⟩
        rw [le_min_iff]
        constructor <;> omega

/-- A returning `fsWrite` whose additions are in range had a count that is not
negative and advances the cursor by it. -/
theorem fsWrite_cursor {B : Int} (st : Bfs) (fd N : Int) (buf : Option Mem)
    (hB : 0 < B) (hB2 : B ≤ 2147483647)
    (hc : 0 ≤ fsTell st fd) (hN : fsTell st fd + N ≤ 2147483647)
    {v : Int} (hret : (fsWrite B st fd N buf).out = .ret v) :
    0 ≤ N ∧ fsTell (fsWrite B st fd N buf).st fd = fsTell st fd + N := by
  have hcurs : ∀ (s' : Bfs) (v : Int), s'.fdToInum = st.fdToInum → s'.findOFTE = st.findOFTE →
      s'.curs = upd st.curs (st.findOFTE (st.fdToInum fd)) v → fsTell s' fd = v := by
    intro s' v h1 h2 h3
    show s'.curs (s'.findOFTE (s'.fdToInum fd)) = v
    rw [h1, h2, h3, upd_same]
  by_cases hneg : N < 0
  · rw [fsWrite_neg B st fd buf hneg] at hret
    cases hret
  by_cases hz : N = 0
  · subst hz
    rw [fsWrite_zero]
    exact ⟨le_refl _, by simp⟩
  have hN1 : 1 ≤ N := by omega
  cases buf with
  | none =>
    rw [fsWrite_null B st fd hN1] at hret
    cases hret
  | some m =>
    by_cases hsp : bfsTell st fd = 49 * B ∧ N = 700
    · obtain ⟨h1, h2⟩ := hsp
      subst h2
      rw [fsWrite_special st fd m h1 hc hN]
      exact ⟨by decide, hcurs _ _ rfl rfl rfl⟩
    · rcases fsWrite_loop_frame st fd m hB hB2 hc hN1 hN hsp with ⟨st', f, e⟩ | ⟨st', f, e⟩
      · rw [e]
        exact ⟨by omega, hcurs _ _ f.fdToInum_eq f.findOFTE_eq rfl⟩
      · rw [e] at hret
        cases hret

/-- A returning call whose additions are in range keeps the cursor and the
size of the file at or above 0. -/
theorem call_keeps_nonneg {B : Int} (st : Bfs) (fd : Int) (c : Call)
    (hB : 0 < B) (hB2 : B ≤ 2147483647)
    (hcur : 0 ≤ fsTell st fd) (hsz : 0 ≤ fsSize st fd) (hr : inRange st fd c)
    {v : Int} (hret : (call B st fd c).1 = .ret v) :
    0 ≤ fsTell (call B st fd c).2 fd ∧ 0 ≤ fsSize (call B st fd c).2 fd := by
  have hcurs : ∀ v : Int, fsTell
      ({ st with curs := upd st.curs (st.findOFTE (st.fdToInum fd)) v } : Bfs) fd = v := by
    intro v
    show upd st.curs (st.findOFTE (st.fdToInum fd)) v (st.findOFTE (st.fdToInum fd)) = v
    rw [upd_same]
  cases c with
  | seek offset whence =>
    have hsize : fsSize (fsSeek st fd offset whence).2 fd = fsSize st fd := by
      rcases fsSeek_state st fd offset whence with h | ⟨w, h⟩
      · rw [h]
      · rw [h]; rfl
    refine ⟨?_, by show 0 ≤ fsSize (fsSeek st fd offset whence).2 fd; rw [hsize]; exact hsz⟩
    show 0 ≤ fsTell (fsSeek st fd offset whence).2 fd
    have hret' : (fsSeek st fd offset whence).1 = .ret v := hret
    by_cases hneg : offset < 0
    · rw [fsSeek_neg st fd offset whence hneg] at hret'
      cases hret'
    have h0 : 0 ≤ offset := by omega
    by_cases hs : whence = SEEK_SET
    · rw [hs, fsSeek_set st fd offset h0, hcurs]
      exact h0
    by_cases hcu : whence = SEEK_CUR
    · have hb := hr.1 hcu
      have hcur' : (0 : Int) ≤ bfsTell st fd := hcur
      have hb' : bfsTell st fd + offset ≤ 2147483647 := hb
      rw [hcu, fsSeek_cur st fd offset h0, hcurs, wrap_eq_of_bounds (by omega) hb']
      omega
    by_cases he : whence = SEEK_END
    · have hb := hr.2 he
      rw [he, fsSeek_end st fd offset h0, hcurs, wrap_eq_of_bounds (by omega) hb]
      omega
    · rw [fsSeek_other st fd offset whence h0 hs hcu he] at hret'
      cases hret'
  | read numb buf =>
    have hret' : (fsRead B st fd numb buf).out = .ret v := hret
    have hr' : fsTell st fd + numb ≤ 2147483647 := hr
    obtain ⟨hv, hcr⟩ := fsRead_cursor st fd numb buf hB hB2 hcur hr' hret'
    constructor
    · show 0 ≤ fsTell (fsRead B st fd numb buf).st fd
      rw [hcr]; omega
    · show 0 ≤ fsSize (fsRead B st fd numb buf).st fd
      rcases fsRead_state B st fd numb buf with h | ⟨w, h⟩ <;> (rw [h]; exact hsz)
  | write numb buf =>
    have hret' : (fsWrite B st fd numb buf).out = .ret v := hret
    have hr' : fsTell st fd + numb ≤ 2147483647 := hr
    obtain ⟨hv, hcr⟩ := fsWrite_cursor st fd numb buf hB hB2 hcur hr' hret'
    constructor
    · show 0 ≤ fsTell (fsWrite B st fd numb buf).st fd
      rw [hcr]; omega
    · show 0 ≤ fsSize (fsWrite B st fd numb buf).st fd
      obtain ⟨h1, _, h3⟩ := fsWrite_state B st fd numb buf
      show 0 ≤ (fsWrite B st fd numb buf).st.size ((fsWrite B st fd numb buf).st.fdToInum fd)
      rw [h1]
      have hsz' : 0 ≤ st.size (st.fdToInum fd) := hsz
      rcases h3 with h | ⟨w, hw, h⟩
      · rw [h]; exact hsz'
      · rw [h, upd_same]; omega

/-- C13, the claim as stated fails: from a session with cursor 0,
`fsSeek(fd, 2147483647, SEEK_SET)` and then `fsSeek(fd, 1, SEEK_CUR)` both
return, and the `i32` addition `2147483647 + 1` leaves the cursor at
`-2147483648`. -/
theorem cursor_negative_after_overflow :
    fsTell fresh 3 = 0 ∧
    (run 512 3 fresh [.seek 2147483647 SEEK_SET, .seek 1 SEEK_CUR]).map (fun s => fsTell s 3)
      = some (-2147483648) := by
  decide

/-- C13 (amended). Cursor non-negativity is an invariant of the session as
long as no `i32` addition overflows: starting from a session whose cursor is 0
on a file whose size is not negative, after every finite sequence of returning
`fsSeek`, `fsRead` and `fsWrite` calls in which cursor plus offset
(`SEEK_CUR`), size plus offset (`SEEK_END`) and cursor plus count (`fsRead`,
`fsWrite`) never exceed `INT_MAX`, the session cursor is at or above 0. -/
theorem cursor_nonneg_invariant {B : Int} (fd : Int) (hB : 0 < B) (hB2 : B ≤ 2147483647)
    (cs : List Call) :
    ∀ (st st' : Bfs), fsTell st fd = 0 → 0 ≤ fsSize st fd → allInRange B fd st cs →
      run B fd st cs = some st' → 0 ≤ fsTell st' fd := by
  have key : ∀ (cs : List Call) (st st' : Bfs), 0 ≤ fsTell st fd → 0 ≤ fsSize st fd →
      allInRange B fd st cs → run B fd st cs = some st' → 0 ≤ fsTell st' fd := by
    intro cs
    induction cs with
    | nil =>
      intro st st' h1 _ _ hrun
      injection hrun with h
      rw [← h]
      exact h1
    | cons c cs ih =>
      intro st st' h1 h2 hr hrun
      rw [run] at hrun
      cases hout : (call B st fd c).1 with
      | ret v =>
        rw [hout] at hrun
        obtain ⟨h3, h4⟩ := call_keeps_nonneg st fd c hB hB2 h1 h2 hr.1 hout
        exact ih _ st' h3 h4 hr.2 hrun
      | fatal e =>
        rw [hout] at hrun
        cases hrun
      | diverge =>
        rw [hout] at hrun
        cases hrun
  intro st st' h0 hsz hr hrun
  exact key cs st st' (by rw [h0]) hsz hr hrun

theorem cursor_nonneg_invariant_witness :
    fsTell fresh 3 = 0 ∧ (0 : Int) ≤ fsSize fresh 3 ∧
    (run 4 3 fresh [.seek 5 SEEK_SET, .write 10 (some helloWorld), .seek 2 SEEK_END]).map
      (fun s => fsTell s 3) = some 17 ∧
    (∀ st', run 4 3 fresh [.seek 5 SEEK_SET, .write 10 (some helloWorld), .seek 2 SEEK_END]
      = some st' → 0 ≤ fsTell st' 3) :=
  ⟨by decide, by decide, by decide, fun st' h =>
    cursor_nonneg_invariant (B := 4) 3 (by decide) (by decide)
      [.seek 5 SEEK_SET, .write 10 (some helloWorld), .seek 2 SEEK_END] fresh st'
      (by decide) (by decide)
      ⟨⟨fun h => absurd h (by decide), fun h => absurd h (by decide)⟩,
        ⟨(by show fsTell _ 3 + 10 ≤ 2147483647; decide),
          ⟨fun h => absurd h (by decide),
            fun _ => (by show fsSize _ 3 + 2 ≤ 2147483647; decide)⟩, trivial⟩⟩ h⟩

/-! ## One iteration, as logged -/

theorem next_block {B p L : Int} (hB : 0 < B) (hL : L = B - p % B) :
    (p + L) / B = p / B + 1 := by
  have hp := Int.ediv_add_emod p B
  have key := (@Int.ediv_emod_unique (p + L) B 0 (p / B + 1) hB).2
    ⟨by rw [hL]; linarith, le_refl _, hB⟩
  exact key.1

theorem same_block {B p L : Int} (hB : 0 < B) (hL1 : 1 ≤ L) (hL : L ≤ B - p % B) :
    (p + L - 1) / B = p / B := by
  have hp := Int.ediv_add_emod p B
  have hm := emod_bounds p hB
  have key := (@Int.ediv_emod_unique (p + L - 1) B (p % B + L - 1) (p / B) hB).2
    ⟨by linarith, by omega, by omega⟩
  exact key.1

theorem bfsAllocBlock_dbn (st : Bfs) (inum fbn i f : Int) (h : ¬ (i = inum ∧ f = fbn)) :
    (bfsAllocBlock st inum fbn).2.dbn i f = st.dbn i f := by
  unfold bfsAllocBlock
  cases hfree : st.free with
  | nil => rfl
  | cons d rest =>
    have := allocated_dbn st inum fbn d rest i f
    rw [if_neg h] at this
    exact this

theorem writeBodyLog_eq {B : Int} (st : Bfs) (inum : Int) {c N k : Int}
    (hB : 0 < B) (hB2 : B ≤ 2147483647) (hc : 0 ≤ c) (hk : 0 ≤ k) (hkN : k < N)
    (hN : c + N ≤ 2147483647) :
    writeBodyLog B inum c N st k =
      ⟨(c + k) / B, (c + k) % B, stride B c N k, st.dbn inum ((c + k) / B),
        if st.dbn inum ((c + k) / B) = 0 then (bfsAllocBlock st inum ((c + k) / B)).1
        else st.dbn inum ((c + k) / B)⟩ := by
  have hm := emod_bounds (c + k) hB
  have e1 : wrap (c + k) = c + k := wrap_eq_of_bounds (by omega) (by omega)
  have e2 : Int.tdiv (c + k) B = (c + k) / B := Int.tdiv_eq_ediv (by omega) (by omega)
  have e3 : Int.tmod (c + k) B = (c + k) % B := Int.tmod_eq_emod (by omega) (by omega)
  have e4 : wrap (N - k) = N - k := wrap_eq_of_bounds (by omega) (by omega)
  have e5 : wrap (B - (c + k) % B) = B - (c + k) % B := wrap_eq_of_bounds (by omega) (by omega)
  have e7 : (if B - (c + k) % B > N - k then N - k else B - (c + k) % B) = stride B c N k := rfl
  unfold writeBodyLog
  simp only [e1, e2, e3, e4, e5, e7, bfsFbnToDbn]

theorem readBodyLog_eq {B : Int} (st : Bfs) (inum : Int) {c N k : Int}
    (hB : 0 < B) (hB2 : B ≤ 2147483647) (hc : 0 ≤ c) (hk : 0 ≤ k) (hkN : k < N)
    (hN : c + N ≤ 2147483647) :
    readBodyLog B st inum c N k =
      ⟨(c + k) / B, (c + k) % B, stride B c N k, st.dbn inum ((c + k) / B),
        st.dbn inum ((c + k) / B)⟩ := by
  have hm := emod_bounds (c + k) hB
  have e1 : wrap (c + k) = c + k := wrap_eq_of_bounds (by omega) (by omega)
  have e2 : Int.tdiv (c + k) B = (c + k) / B := Int.tdiv_eq_ediv (by omega) (by omega)
  have e3 : Int.tmod (c + k) B = (c + k) % B := Int.tmod_eq_emod (by omega) (by omega)
  have e4 : wrap (N - k) = N - k := wrap_eq_of_bounds (by omega) (by omega)
  have e5 : wrap (B - (c + k) % B) = B - (c + k) % B := wrap_eq_of_bounds (by omega) (by omega)
  have e7 : (if B - (c + k) % B > N - k then N - k else B - (c + k) % B) = stride B c N k := rfl
  unfold readBodyLog
  simp only [e1, e2, e3, e4, e5, e7, bfsFbnToDbn]

/-- One iteration of the write loop: it stops at `FATAL(EDISKFULL)` exactly
when the block is unmapped and `bfsAllocBlock` returns 0; otherwise it advances
by the stride and changes the block map at most at the block it works on. -/
theorem writeBody_step {B : Int} (st : Bfs) (inum : Int) {c N k : Int} (src : Mem)
    (hB : 0 < B) (hB2 : B ≤ 2147483647) (hc : 0 ≤ c) (hk : 0 ≤ k) (hkN : k < N)
    (hN : c + N ≤ 2147483647) :
    (∃ st1, writeBody B inum c N src st k = .error st1 ∧
      (writeBodyLog B inum c N st k).allocFailed) ∨
    (∃ st1, writeBody B inum c N src st k = .ok (st1, k + stride B c N k) ∧
      ¬ (writeBodyLog B inum c N st k).allocFailed ∧
      ∀ i f, ¬ (i = inum ∧ f = (c + k) / B) → st1.dbn i f = st.dbn i f) := by
  have hm := emod_bounds (c + k) hB
  have e1 : wrap (c + k) = c + k := wrap_eq_of_bounds (by omega) (by omega)
  have e2 : Int.tdiv (c + k) B = (c + k) / B := Int.tdiv_eq_ediv (by omega) (by omega)
  have e3 : Int.tmod (c + k) B = (c + k) % B := Int.tmod_eq_emod (by omega) (by omega)
  have e4 : wrap (N - k) = N - k := wrap_eq_of_bounds (by omega) (by omega)
  have e5 : wrap (B - (c + k) % B) = B - (c + k) % B := wrap_eq_of_bounds (by omega) (by omega)
  have s1 := stride_pos (c := c) hB hkN
  have s2 := @stride_le_left B c N k
  have e6 : wrap (k + stride B c N k) = k + stride B c N k :=
    wrap_eq_of_bounds (by omega) (by omega)
  have e7 : (if B - (c + k) % B > N - k then N - k else B - (c + k) % B) = stride B c N k := rfl
  rw [writeBodyLog_eq st inum hB hB2 hc hk hkN hN]
  unfold writeBody Iter.allocFailed
  simp only [e1, e2, e3, e4, e5, e7, e6, bfsFbnToDbn]
  by_cases hd : st.dbn inum ((c + k) / B) = 0
  · simp only [hd, if_true]
    by_cases hd2 : (bfsAllocBlock st inum ((c + k) / B)).1 = 0
    · left
      exact ⟨(bfsAllocBlock st inum ((c + k) / B)).2, by simp only [hd2, if_true],
        trivial, hd2⟩
    · right
      refine ⟨bioWrite (bfsAllocBlock st inum ((c + k) / B)).2
        (bfsAllocBlock st inum ((c + k) / B)).1
        (memcpy (memset (fun _ => 0) 0 0 B) ((c + k) % B) src k (stride B c N k)), ?_, ?_, ?_⟩
      · simp only [hd2, if_false]
      · exact fun h => hd2 h.2
      · intro i f hne
        exact bfsAllocBlock_dbn st inum ((c + k) / B) i f hne
  · right
    refine ⟨bioWrite st (st.dbn inum ((c + k) / B))
      (memcpy (if (c + k) % B > 0 ∨ stride B c N k < B
          then bioRead st (st.dbn inum ((c + k) / B))
          else memset (fun _ => 0) 0 0 B)
        ((c + k) % B) src k (stride B c N k)), ?_, ?_, ?_⟩
    · simp only [hd, if_false]
    · exact fun h => hd h.1
    · intro i f _
      rfl

/-! ## The log of the write loop -/

theorem stride_eq_block {B c N k : Int} (h : k + stride B c N k < N) :
    stride B c N k = B - (c + k) % B := by
  unfold stride at h ⊢
  split
  · rename_i h1
    rw [if_pos h1] at h
    omega
  · rfl

theorem logSpec_done (B inum c N : Int) (st0 st : Bfs) :
    LogSpec B inum c N st0 N [] (.done st N) := by
  refine ⟨fun it h => ?_, fun it h => ?_, List.Pairwise.nil, fun h => absurd h (lt_irrefl _),
    Or.inl ⟨⟨st, rfl⟩, fun it h => ?_, by simp, fun f h => absurd h (lt_irrefl _)⟩⟩
  · cases h
  · cases h
  · cases h

theorem writeLoopLog_spec {B : Int} (inum : Int) {c N : Int} (src : Mem) (st0 : Bfs)
    (hB : 0 < B) (hB2 : B ≤ 2147483647) (hc : 0 ≤ c) (hN : c + N ≤ 2147483647) :
    ∀ (fuel : Nat) (st : Bfs) (k : Int), 0 ≤ k → k ≤ N → N - k ≤ fuel →
      (∀ f, (c + k) / B ≤ f → st.dbn inum f = st0.dbn inum f) →
      LogSpec B inum c N st0 k (writeLoopLog B inum c N src fuel st k)
        (writeLoop B inum c N src fuel st k) := by
  intro fuel
  induction fuel with
  | zero =>
    intro st k hk hkN hf _
    have : k = N := by omega
    subst this
    have e1 : writeLoopLog B inum c k src 0 st k = [] := by unfold writeLoopLog; simp
    have e2 : writeLoop B inum c k src 0 st k = .done st k := by unfold writeLoop; simp
    rw [e1, e2]
    exact logSpec_done B inum c k st0 st
  | succ fuel ih =>
    intro st k hk hkN hf hinv
    by_cases hlt : k < N
    swap
    · have : k = N := by omega
      subst this
      have e1 : writeLoopLog B inum c k src (fuel + 1) st k = [] := by
        unfold writeLoopLog; simp
      have e2 : writeLoop B inum c k src (fuel + 1) st k = .done st k := by
        unfold writeLoop; simp
      rw [e1, e2]
      exact logSpec_done B inum c k st0 st
    have s1 := stride_pos (c := c) hB hlt
    have s2 := @stride_le_left B c N k
    have s3 := @stride_le_block B c N k
    have hm := emod_bounds (c + k) hB
    have hlog := writeBodyLog_eq st inum hB hB2 hc hk hlt hN
    have hq2 : (c + k) / B ≤ (c + N - 1) / B := Int.ediv_le_ediv hB (by omega)
    -- the head of the log
    have hhead1 : 1 ≤ (writeBodyLog B inum c N st k).len ∧
        (writeBodyLog B inum c N st k).len ≤ B ∧ 0 ≤ (writeBodyLog B inum c N st k).offset ∧
        (writeBodyLog B inum c N st k).offset + (writeBodyLog B inum c N st k).len ≤ B := by
      rw [hlog]
      dsimp only
      exact ⟨s1, by omega, hm.1, by omega⟩
    have hfbn : (writeBodyLog B inum c N st k).fbn = (c + k) / B := by rw [hlog]
    have hlen : (writeBodyLog B inum c N st k).len = stride B c N k := by rw [hlog]
    have hhead2 : (c + k) / B ≤ (writeBodyLog B inum c N st k).fbn ∧
        (writeBodyLog B inum c N st k).fbn ≤ (c + N - 1) / B ∧
        (writeBodyLog B inum c N st k).lookup =
          st0.dbn inum (writeBodyLog B inum c N st k).fbn := by
      rw [hlog]
      dsimp only
      exact ⟨le_refl _, hq2, hinv _ (le_refl _)⟩
    rcases writeBody_step st inum src hB hB2 hc hk hlt hN with
      ⟨st1, hb, hfail⟩ | ⟨st1, hb, hnofail, hdbn⟩
    · -- the allocation fails
      have e1 : writeLoopLog B inum c N src (fuel + 1) st k
          = [writeBodyLog B inum c N st k] := by
        rw [writeLoopLog]; simp only [hlt, if_true, hb]
      have e2 : writeLoop B inum c N src (fuel + 1) st k = .full st1 := by
        rw [writeLoop]; simp only [hlt, if_true, hb]
      rw [e1, e2]
      refine ⟨?_, ?_, ?_, ?_, Or.inr ⟨⟨st1, rfl⟩, _, List.mem_singleton.2 rfl, hfail⟩⟩
      · intro it hit
        rw [List.mem_singleton.1 hit]
        exact hhead1
      · intro it hit
        rw [List.mem_singleton.1 hit]
        exact hhead2
      · simp
      · intro _
        simp only [List.length_singleton]
        push_cast
        omega
    · have e1 : writeLoopLog B inum c N src (fuel + 1) st k
          = writeBodyLog B inum c N st k ::
            writeLoopLog B inum c N src fuel st1 (k + stride B c N k) := by
        rw [writeLoopLog]; simp only [hlt, if_true, hb]
      have e2 : writeLoop B inum c N src (fuel + 1) st k
          = writeLoop B inum c N src fuel st1 (k + stride B c N k) := by
        rw [writeLoop]; simp only [hlt, if_true, hb]
      rw [e1, e2]
      by_cases hend : k + stride B c N k = N
      · -- the last stride
        have e3 : writeLoopLog B inum c N src fuel st1 (k + stride B c N k) = [] := by
          rw [hend]; unfold writeLoopLog; simp
        have e4 : writeLoop B inum c N src fuel st1 (k + stride B c N k) = .done st1 N := by
          rw [hend]; unfold writeLoop; simp
        have hsame : (c + N - 1) / B = (c + k) / B := by
          have := same_block (p := c + k) hB s1 s3
          rw [show c + k + stride B c N k - 1 = c + N - 1 by omega] at this
          exact this
        rw [e3, e4]
        refine ⟨?_, ?_, ?_, ?_, Or.inl ⟨⟨st1, rfl⟩, ?_, ?_, ?_⟩⟩
        · intro it hit
          rw [List.mem_singleton.1 hit]
          exact hhead1
        · intro it hit
          rw [List.mem_singleton.1 hit]
          exact hhead2
        · simp
        · intro _
          simp only [List.length_singleton]
          push_cast
          omega
        · intro it hit
          rw [List.mem_singleton.1 hit]
          exact hnofail
        · simp only [List.map_cons, List.map_nil, List.sum_cons, List.sum_nil, hlen]
          omega
        · intro f _ hf1 hf2
          refine ⟨_, List.mem_singleton.2 rfl, ?_⟩
          rw [hfbn]
          omega
      · -- more strides follow
        have hlt2 : k + stride B c N k < N := by omega
        have hnext : (c + (k + stride B c N k)) / B = (c + k) / B + 1 := by
          have := next_block (p := c + k) hB (stride_eq_block hlt2)
          rw [← add_assoc]
          exact this
        have hinv2 : ∀ f, (c + (k + stride B c N k)) / B ≤ f →
            st1.dbn inum f = st0.dbn inum f := by
          intro f hf
          rw [hdbn inum f (by rintro ⟨_, h⟩; omega)]
          exact hinv f (by omega)
        have IH := ih st1 (k + stride B c N k) (by omega) (by omega)
          (by push_cast at hf; omega) hinv2
        refine ⟨?_, ?_, ?_, ?_, ?_⟩
        · intro it hit
          rcases List.mem_cons.1 hit with h | h
          · rw [h]; exact hhead1
          · exact IH.strides it h
        · intro it hit
          rcases List.mem_cons.1 hit with h | h
          · rw [h]; exact hhead2
          · have := IH.blocks it h
            exact ⟨by omega, this.2.1, this.2.2⟩
        · rw [List.map_cons, List.pairwise_cons]
          refine ⟨?_, IH.increasing⟩
          intro a ha
          obtain ⟨it, hit, rfl⟩ := List.mem_map.1 ha
          have := (IH.blocks it hit).1
          rw [hfbn]
          omega
        · intro _
          have := IH.count hlt2
          simp only [List.length_cons]
          push_cast
          omega
        · rcases IH.ending with ⟨hdone, hnf, hsum, hcov⟩ | ⟨hfull, it, hit, hfl⟩
          · refine Or.inl ⟨hdone, ?_, ?_, ?_⟩
            · intro it hit
              rcases List.mem_cons.1 hit with h | h
              · rw [h]; exact hnofail
              · exact hnf it h
            · simp only [List.map_cons, List.sum_cons, hlen, hsum]
              omega
            · intro f _ hf1 hf2
              by_cases hfq : f = (c + k) / B
              · exact ⟨_, List.mem_cons_self _ _, by rw [hfbn, hfq]⟩
              · obtain ⟨it, hit, hitf⟩ := hcov f hlt2 (by omega) hf2
                exact ⟨it, List.mem_cons_of_mem _ hit, hitf⟩
          · exact Or.inr ⟨hfull, it, List.mem_cons_of_mem _ hit, hfl⟩

/-! ## The log of the read loop -/

theorem readLoopLog_spec {B : Int} (st : Bfs) (inum : Int) {c N : Int}
    (hB : 0 < B) (hB2 : B ≤ 2147483647) (hc : 0 ≤ c) (hN : c + N ≤ 2147483647) :
    ∀ (fuel : Nat) (k : Int) (dest : Mem), 0 ≤ k → k ≤ N → N - k ≤ fuel →
      (∀ it ∈ readLoopLog B st inum c N fuel k dest,
        1 ≤ it.len ∧ it.len ≤ B ∧ 0 ≤ it.offset ∧ it.offset + it.len ≤ B) ∧
      ((readLoopLog B st inum c N fuel k dest).map Iter.len).sum = N - k ∧
      (k < N → ((readLoopLog B st inum c N fuel k dest).length : Int) + (c + k) / B
        ≤ (c + N - 1) / B + 1) := by
  intro fuel
  induction fuel with
  | zero =>
    intro k dest hk hkN hf
    have : k = N := by omega
    subst this
    have e1 : readLoopLog B st inum c k 0 k dest = [] := by unfold readLoopLog; simp
    rw [e1]
    exact ⟨fun it h => (by cases h), (by simp), fun h => absurd h (lt_irrefl _)⟩
  | succ fuel ih =>
    intro k dest hk hkN hf
    by_cases hlt : k < N
    swap
    · have : k = N := by omega
      subst this
      have e1 : readLoopLog B st inum c k (fuel + 1) k dest = [] := by
        unfold readLoopLog; simp
      rw [e1]
      exact ⟨fun it h => (by cases h), (by simp), fun h => absurd h (lt_irrefl _)⟩
    have s1 := stride_pos (c := c) hB hlt
    have s2 := @stride_le_left B c N k
    have s3 := @stride_le_block B c N k
    have hm := emod_bounds (c + k) hB
    have hlog := readBodyLog_eq st inum hB hB2 hc hk hlt hN
    have hq2 : (c + k) / B ≤ (c + N - 1) / B := Int.ediv_le_ediv hB (by omega)
    have hhead1 : 1 ≤ (readBodyLog B st inum c N k).len ∧
        (readBodyLog B st inum c N k).len ≤ B ∧ 0 ≤ (readBodyLog B st inum c N k).offset ∧
        (readBodyLog B st inum c N k).offset + (readBodyLog B st inum c N k).len ≤ B := by
      rw [hlog]
      dsimp only
      exact ⟨s1, by omega, hm.1, by omega⟩
    have hlen : (readBodyLog B st inum c N k).len = stride B c N k := by rw [hlog]
    have e1 : readLoopLog B st inum c N (fuel + 1) k dest
        = readBodyLog B st inum c N k ::
          readLoopLog B st inum c N fuel (k + stride B c N k)
            (memcpy dest k (bfsRead st inum ((c + k) / B)) ((c + k) % B) (stride B c N k)) := by
      rw [readLoopLog]
      simp only [hlt, if_true]
      rw [readBody_eq st inum dest hB hB2 hc hk hlt hN]
    rw [e1]
    obtain ⟨ih1, ih2, ih3⟩ := ih (k + stride B c N k)
      (memcpy dest k (bfsRead st inum ((c + k) / B)) ((c + k) % B) (stride B c N k))
      (by omega) (by omega) (by push_cast at hf; omega)
    refine ⟨?_, ?_, ?_⟩
    · intro it hit
      rcases List.mem_cons.1 hit with h | h
      · rw [h]; exact hhead1
      · exact ih1 it h
    · simp only [List.map_cons, List.sum_cons, hlen, ih2]
      omega
    · intro _
      simp only [List.length_cons]
      push_cast
      by_cases hend : k + stride B c N k = N
      · have e3 : readLoopLog B st inum c N fuel (k + stride B c N k)
            (memcpy dest k (bfsRead st inum ((c + k) / B)) ((c + k) % B) (stride B c N k))
            = [] := by
          rw [hend]; unfold readLoopLog; simp
        rw [e3]
        simp only [List.length_nil]
        push_cast
        omega
      · have hlt2 : k + stride B c N k < N := by omega
        have hnext : (c + (k + stride B c N k)) / B = (c + k) / B + 1 := by
          have := next_block (p := c + k) hB (stride_eq_block hlt2)
          rw [← add_assoc]
          exact this
        have := ih3 hlt2
        omega

/-- A transfer of `N ≥ 1` bytes at cursor `c ≥ 0` touches at most
`N / B + 2` blocks. -/
theorem blocks_le {B c N : Int} (hB : 0 < B) (_hN1 : 1 ≤ N) :
    (c + N - 1) / B + 1 - c / B ≤ N / B + 2 := by
  have h1 := Int.ediv_add_emod c B
  have h2 := Int.ediv_add_emod N B
  have m1 := emod_bounds c hB
  have m2 := emod_bounds N hB
  have hring : (c / B + N / B + 2) * B = B * (c / B) + B * (N / B) + 2 * B := by ring
  have hlt : (c + N - 1) / B < c / B + N / B + 2 := by
    apply Int.ediv_lt_of_lt_mul hB
    rw [hring]
    omega
  omega

/-- How `fsWrite` ends on its block-mapped path, from how its loop ends. -/
theorem fsWrite_out_of_loop (B : Int) (st : Bfs) (fd N : Int) (src : Mem) (hN1 : 1 ≤ N)
    (hsp : ¬ (fsTell st fd = 49 * B ∧ N = 700)) :
    (∀ st' n, writeLoop B (st.fdToInum fd) (fsTell st fd) N src N.toNat st 0 = .done st' n →
      (fsWrite B st fd N (some src)).out = .ret 0) ∧
    (∀ st', writeLoop B (st.fdToInum fd) (fsTell st fd) N src N.toNat st 0 = .full st' →
      (fsWrite B st fd N (some src)).out = .fatal .EDISKFULL) := by
  have h1 : ¬ N < 0 := by omega
  have h2 : ¬ N = 0 := by omega
  have h' : ¬ (st.curs (bfsFindOFTE st (bfsFdToInum st fd)) = 49 * B ∧ N = 700) := hsp
  constructor
  · intro st' n h
    have h3 : writeLoop B (bfsFdToInum st fd) (st.curs (bfsFindOFTE st (bfsFdToInum st fd)))
        N src N.toNat st 0 = .done st' n := h
    unfold fsWrite
    simp only [if_neg h1, if_neg h2, if_neg h', h3]
  · intro st' h
    have h3 : writeLoop B (bfsFdToInum st fd) (st.curs (bfsFindOFTE st (bfsFdToInum st fd)))
        N src N.toNat st 0 = .full st' := h
    unfold fsWrite
    simp only [if_neg h1, if_neg h2, if_neg h', h3]

/-! ## Disk full -/

/-- C9, the claim as stated fails: with the cursor at `INT_MAX`,
`fsSeek(fd, 1, SEEK_CUR)` returns 0 and the `i32` addition leaves the cursor
at `-2147483648`, which is neither `c + offset` nor at or above the cursor
before. -/
theorem fsSeek_cur_overflow :
    fsTell atIntMax 3 = 2147483647 ∧
    (fsSeek atIntMax 3 1 SEEK_CUR).1 = .ret 0 ∧
    fsTell (fsSeek atIntMax 3 1 SEEK_CUR).2 3 = -2147483648 ∧
    fsTell (fsSeek atIntMax 3 1 SEEK_CUR).2 3 ≠ fsTell atIntMax 3 + 1 ∧
    fsTell (fsSeek atIntMax 3 1 SEEK_CUR).2 3 < fsTell atIntMax 3 := by
  decide

/-- C8, the claim as stated fails: with the cursor at `2147483644`, `fsWrite`
of 8 bytes returns 0 and the `i32` addition leaves the cursor at
`-2147483644`, not at the cursor before plus 8. -/
theorem fsWrite_cursor_overflow :
    fsTell nearIntMax 3 = 2147483644 ∧
    (fsWrite 512 nearIntMax 3 8 (some helloWorld)).out = .ret 0 ∧
    fsTell (fsWrite 512 nearIntMax 3 8 (some helloWorld)).st 3 = -2147483644 ∧
    fsTell (fsWrite 512 nearIntMax 3 8 (some helloWorld)).st 3 ≠ fsTell nearIntMax 3 + 8 := by
  decide

/-- C17, the claim as stated fails: with cursor `2147483000` in a file of size
`2147483010`, count 1000 and the special-cased branch not taken, the `i32`
addition `cursor + numb` overflows, the clamp is skipped and `fsRead` returns
1000, not `min(1000, 10) = 10`. -/
theorem fsRead_clamp_overflow :
    fsTell bigFile 3 = 2147483000 ∧ fsSize bigFile 3 = 2147483010 ∧
    ¬ (fsTell bigFile 3 = 49 * 512 ∧ (1000 : Int) ≥ 700) ∧
    (fsRead 512 bigFile 3 1000 (some (fun _ => 0))).out = .ret 1000 ∧
    min (1000 : Int) (fsSize bigFile 3 - fsTell bigFile 3) = 10 := by
  decide

end Fs
